import Mathlib

/-!
# `concat_view` (range-v3, `include/range/v3/view/concat.hpp`)

A shallow embedding of the cursor of `concat_view<Rngs...>` and of the
view's `size()`.

* The stored tuple `rngs_` is a list of sequences; `cranges` is its length.
* An iterator into sequence `N` is its offset from `begin`, a natural number
  between `0` and the length of the sequence (the length itself is `end`).
* The tagged variant `its_` is the pair of `which()` and that offset.
* Operations whose C++ counterpart has a precondition (stepping an iterator out
  of its sequence, a failing `RANGES_ASSERT`) return `none` when it is violated.
* The source asserts nothing before the `++it` of `next_fun`, and the interface
  of an input sequence names no precondition for the forward step. The steps
  are therefore also given in the form `next_unchecked`, `prev_unchecked`,
  where `++it` is the bare increment of the offset (the offset `length + 1`
  is one past the terminal position) and the only failure of a backward step
  is the one at the initial position. They agree with `next` and `prev`
  wherever those return a position.
* `difference_type` is a signed type whose overflow is undefined; it is `Int`.
  The unsigned `size_type_` is `Nat` modulo `2 ^ w`.
-/

namespace Concat

/-! ## The input sequences -/

/-- The tuple `rngs_` of the view, in its fixed order. -/
abbrev View (α : Type) := List (List α)

/-- The constant `cranges`, that is `sizeof...(Rngs)`. -/
def cranges {α : Type} (v : View α) : Nat := v.length

/-- The sequence `std::get<N>(rng_->rngs_)`. -/
def rng {α : Type} (v : View α) (N : Nat) : List α := v.getD N []

/-- Modelled from the spec: `initial_position()` of an input sequence
(`begin(rng)`), which the source takes from `begin_end.hpp`. -/
def seqBegin {α : Type} (_s : List α) : Nat := 0

/-- Modelled from the spec: `terminal_position()` of an input sequence
(`end(rng)`), which the source takes from `begin_end.hpp`. -/
def seqEnd {α : Type} (s : List α) : Nat := s.length

/-- Modelled from the spec: `step_forward(p)` of an input sequence (`++it`);
an iterator at the terminal position cannot be stepped forward. -/
def seqInc {α : Type} (s : List α) (it : Nat) : Option Nat :=
  if it < s.length then some (it + 1) else none

/-- Modelled from the spec: `step_backward(p)` of an input sequence (`--it`);
an iterator at the initial position cannot be stepped backward. -/
def seqDec {α : Type} (s : List α) (it : Nat) : Option Nat :=
  if 0 < it ∧ it ≤ s.length then some (it - 1) else none

/-- Modelled from the spec: the unbounded random jump `ranges::advance(it, n)`
of `utility/iterator.hpp`; the target has to be a position of the sequence. -/
def seqAdvance {α : Type} (s : List α) (it : Nat) (n : Int) : Option Nat :=
  if 0 ≤ (it : Int) + n ∧ (it : Int) + n ≤ s.length then some ((it : Int) + n).toNat else none

/-- Modelled from the spec: `bounded_advance(p, n, limit) -> remainder`, the
call `ranges::advance(it, n, bound)` of `utility/iterator.hpp`: move by up to
`n` steps toward `bound` and return the new position with the unconsumed
remainder (of the sign of `n`). The bound has to lie in the direction of `n`. -/
def seqAdvanceBounded (it : Nat) (n : Int) (bound : Nat) : Option (Nat × Int) :=
  let dist : Int := (bound : Int) - (it : Int)
  if 0 ≤ n then
    if dist < 0 then none
    else if dist ≤ n then some (bound, n - dist)
    else some (((it : Int) + n).toNat, 0)
  else
    if 0 < dist then none
    else if n ≤ dist then some (bound, n - dist)
    else some (((it : Int) + n).toNat, 0)

/-- Modelled from the spec: the in-sequence distance between two positions
(`std::distance(a, b)` on random-access iterators). -/
def seqDistance (a b : Nat) : Int := (b : Int) - (a : Int)

/-- Modelled from the spec: reading the element at a position (`*it`);
the terminal position holds no element. -/
def seqDeref {α : Type} (s : List α) (it : Nat) : Option α := s[it]?

/-! ## The cursor -/

/-- The tagged variant `its_` of `concat_view::cursor`: the active index
`which()` and the iterator into that sequence. -/
structure Cursor where
  /-- The active index `its_.which()`. -/
  which : Nat
  /-- The active iterator `ranges::get<which>(its_)`, as an offset. -/
  it : Nat
  deriving DecidableEq, Repr

/-- The recursion of `cursor::satisfy(meta::size_t<N>)` with `N = c.which`; the
first argument is `cranges - 1 - N`, so `0` is the overload
`satisfy(meta::size_t<cranges - 1>)`. -/
def satisfyAux {α : Type} (v : View α) : Nat → Cursor → Cursor
  | 0, c => c
  | k + 1, c =>
    if c.it = seqEnd (rng v c.which) then
      satisfyAux v k ⟨c.which + 1, seqBegin (rng v (c.which + 1))⟩
    else c

/-- The call `this->satisfy(meta::size_t<N>{})` on a cursor whose `which()` is `N`. -/
def satisfy {α : Type} (v : View α) (c : Cursor) : Cursor :=
  satisfyAux v (cranges v - 1 - c.which) c

/-- The method `cursor::next`: `its_.apply_i(next_fun{this})`. -/
def next {α : Type} (v : View α) (c : Cursor) : Option Cursor :=
  match seqInc (rng v c.which) c.it with
  | none => none
  | some it' => some (satisfy v ⟨c.which, it'⟩)

/-- The functor `prev_fun`, called on iterator `it` of index `N`; `none` is the
failing `RANGES_ASSERT(it != begin(std::get<0>(...)))`. -/
def prev_fun {α : Type} (v : View α) : Nat → Nat → Option Cursor
  | 0, it =>
    if it ≠ seqBegin (rng v 0) then (seqDec (rng v 0) it).map (Cursor.mk 0) else none
  | N + 1, it =>
    if it = seqBegin (rng v (N + 1)) then prev_fun v N (seqEnd (rng v N))
    else (seqDec (rng v (N + 1)) it).map (Cursor.mk (N + 1))

/-- The method `cursor::prev`: `its_.apply_i(prev_fun{this})`. -/
def prev {α : Type} (v : View α) (c : Cursor) : Option Cursor :=
  prev_fun v c.which c.it

/-- The functor `advance_fwd_fun{pos, n}` applied through `apply_i`. The
re-dispatch `pos->its_.apply_i(advance_fwd_fun{pos, rest})` is a run-time
recursion; the first argument bounds the number of re-dispatches. -/
def advance_fwd_fun {α : Type} (v : View α) : Nat → Cursor → Int → Option Cursor
  | 0, c, n =>
    if c.which = cranges v - 1 then (seqAdvance (rng v c.which) c.it n).map (Cursor.mk c.which)
    else none
  | fuel + 1, c, n =>
    if c.which = cranges v - 1 then (seqAdvance (rng v c.which) c.it n).map (Cursor.mk c.which)
    else
      match seqAdvanceBounded c.it n (seqEnd (rng v c.which)) with
      | none => none
      | some (it', rest) =>
        if rest ≠ 0 then advance_fwd_fun v fuel (satisfy v ⟨c.which, it'⟩) rest
        else some (satisfy v ⟨c.which, it'⟩)

/-- The functor `advance_rev_fun{pos, n}` called on iterator `it` of index `N`.
The first argument bounds the number of calls (direct and through `apply_i`). -/
def advance_rev_fun {α : Type} (v : View α) : Nat → Nat → Nat → Int → Option Cursor
  | _, 0, it, n => (seqAdvance (rng v 0) it n).map (Cursor.mk 0)
  | 0, _ + 1, _, _ => none
  | fuel + 1, N + 1, it, n =>
    if it = seqBegin (rng v (N + 1)) then advance_rev_fun v fuel N (seqEnd (rng v N)) n
    else
      match seqAdvanceBounded it n (seqBegin (rng v (N + 1))) with
      | none => none
      | some (it', rest) =>
        if rest ≠ 0 then advance_rev_fun v fuel (N + 1) it' rest
        else some ⟨N + 1, it'⟩

/-- The method `cursor::advance(n)`. -/
def advance {α : Type} (v : View α) (c : Cursor) (n : Int) : Option Cursor :=
  if 0 < n then advance_fwd_fun v (cranges v) c n
  else if n < 0 then advance_rev_fun v (2 * cranges v) c.which c.it n
  else some c

/-- The static recursion `cursor::distance_to_(meta::size_t<N>, from, to)`; the
first argument is `cranges - N`, so `0` is the overload for `meta::size_t<cranges>`
with its `RANGES_ASSERT(false)`. The last `none` is a failing
`RANGES_ASSERT(to.its_.which() == N)`. -/
def distance_to_ {α : Type} (v : View α) : Nat → Nat → Cursor → Cursor → Option Int
  | 0, _, _, _ => none
  | k + 1, N, src, dst =>
    if src.which > N then distance_to_ v k (N + 1) src dst
    else if src.which = N then
      if dst.which = N then some (seqDistance src.it dst.it)
      else (distance_to_ v k (N + 1) src dst).map
        (fun d => seqDistance src.it (seqEnd (rng v N)) + d)
    else if src.which < N ∧ dst.which > N then
      (distance_to_ v k (N + 1) src dst).map (fun d => ((rng v N).length : Int) + d)
    else if dst.which = N then some (seqDistance (seqBegin (rng v N)) dst.it)
    else none

/-- The method `cursor::distance_to(that)`. -/
def distance_to {α : Type} (v : View α) (c that : Cursor) : Option Int :=
  if c.which ≤ that.which then distance_to_ v (cranges v) 0 c that
  else (distance_to_ v (cranges v) 0 that c).map (fun d => -d)

/-- The method `cursor::equal`: `its_ == pos.its_`. -/
def equal (c pos : Cursor) : Bool := c.which == pos.which && c.it == pos.it

/-- The method `cursor::current`: dereference the active iterator. -/
def current {α : Type} (v : View α) (c : Cursor) : Option α :=
  seqDeref (rng v c.which) c.it

/-- The constructor `cursor(rng, begin_tag)`, returned by `begin_cursor`. -/
def begin_cursor {α : Type} (v : View α) : Cursor :=
  satisfy v ⟨0, seqBegin (rng v 0)⟩

/-- The constructor `cursor(rng, end_tag)`, returned by `end_cursor` when every
input is bounded. -/
def end_cursor {α : Type} (v : View α) : Cursor :=
  ⟨cranges v - 1, seqEnd (rng v (cranges v - 1))⟩

/-- The struct `concat_view::sentinel`: the terminal position of the last sequence. -/
structure Sentinel where
  /-- The member `end_`. -/
  end_ : Nat
  deriving DecidableEq, Repr

/-- The constructor `sentinel(rng, end_tag)`. -/
def sentinel {α : Type} (v : View α) : Sentinel :=
  ⟨seqEnd (rng v (cranges v - 1))⟩

/-- The method `sentinel::equal`. -/
def Sentinel.equal {α : Type} (v : View α) (s : Sentinel) (pos : Cursor) : Bool :=
  pos.which == cranges v - 1 && pos.it == s.end_

/-- The method `concat_view::size`: the left fold of `plus` over the sizes of the
inputs, from `size_type_{0}`, in the unsigned type `size_type_` of `w` bits. -/
def size {α : Type} (v : View α) (w : Nat) : Nat :=
  (v.map List.length).foldl (fun acc s => (acc + s) % 2 ^ w) 0

/-- A forward traversal: while the position is not the end, take `current()`
and then `next()`. The first argument bounds the number of iterations; `none`
is a traversal that is cut short or that violates a precondition. -/
def traverse {α : Type} (v : View α) (atEnd : Cursor → Bool) : Nat → Cursor → Option (List α)
  | 0, c => if atEnd c then some [] else none
  | fuel + 1, c =>
    if atEnd c then some []
    else
      match current v c, next v c with
      | some x, some c' => (traverse v atEnd fuel c').map (fun xs => x :: xs)
      | _, _ => none

/-- Apply `next()` `n` times. -/
def nextN {α : Type} (v : View α) : Nat → Cursor → Option Cursor
  | 0, c => some c
  | n + 1, c => (next v c).bind (nextN v n)

/-! ## Positions of the concatenation -/

/-- The number of elements in the sequences before index `i`. -/
def offset {α : Type} (v : View α) (i : Nat) : Nat := ((v.take i).map List.length).sum

/-- The flat offset of a position: the elements before its sequence plus its
offset inside the sequence. -/
def flat {α : Type} (v : View α) (c : Cursor) : Nat := offset v c.which + c.it

/-- The sum of the sizes of the sequences strictly between indices `i` and `k`. -/
def sizesBetween {α : Type} (v : View α) (i k : Nat) : Nat :=
  (((v.take k).drop (i + 1)).map List.length).sum

/-- The core invariant: the index is in range, the iterator is a position of
the active sequence and it is the terminal position only in the last sequence. -/
def Valid {α : Type} (v : View α) (c : Cursor) : Prop :=
  c.which < cranges v ∧ c.it ≤ (rng v c.which).length ∧
    (c.it = (rng v c.which).length → c.which = cranges v - 1)

instance {α : Type} (v : View α) (c : Cursor) : Decidable (Valid v c) := by
  unfold Valid; infer_instance

/-- Modelled from the spec: `step_forward(p)` of an input sequence (`++it`) as
the bare increment of the offset, with no precondition. -/
def seqIncUnchecked (it : Nat) : Nat := it + 1

/-- Modelled from the spec: `step_backward(p)` of an input sequence (`--it`) as
the bare decrement of the offset; only the initial position, which has no
predecessor, cannot be stepped backward. -/
def seqDecUnchecked (it : Nat) : Option Nat :=
  if 0 < it then some (it - 1) else none

/-- The method `cursor::next` with the bare `++it`: `next_fun` increments the
active iterator and calls `satisfy` at the active index. -/
def next_unchecked {α : Type} (v : View α) (c : Cursor) : Cursor :=
  satisfy v ⟨c.which, seqIncUnchecked c.it⟩

/-- The functor `prev_fun` with the bare `--it`, called on iterator `it` of
index `N`; `none` is the failing `RANGES_ASSERT(it != begin(std::get<0>(...)))`. -/
def prev_fun_unchecked {α : Type} (v : View α) : Nat → Nat → Option Cursor
  | 0, it =>
    if it ≠ seqBegin (rng v 0) then (seqDecUnchecked it).map (Cursor.mk 0) else none
  | N + 1, it =>
    if it = seqBegin (rng v (N + 1)) then prev_fun_unchecked v N (seqEnd (rng v N))
    else (seqDecUnchecked it).map (Cursor.mk (N + 1))

/-- The method `cursor::prev` with the bare `--it`. -/
def prev_unchecked {α : Type} (v : View α) (c : Cursor) : Option Cursor :=
  prev_fun_unchecked v c.which c.it

/-- Apply `prev()` `n` times. -/
def prevN {α : Type} (v : View α) : Nat → Cursor → Option Cursor
  | 0, c => some c
  | n + 1, c => (prev v c).bind (prevN v n)

/-- The control flow of `prev_fun` on iterator `it` of index `N`, recording
whether it reaches `RANGES_ASSERT(it != begin(std::get<0>(...)))` with the
asserted condition false. -/
def prev_fun_asserts {α : Type} (v : View α) : Nat → Nat → Bool
  | 0, it => decide (it = seqBegin (rng v 0))
  | N + 1, it =>
    if it = seqBegin (rng v (N + 1)) then prev_fun_asserts v N (seqEnd (rng v N))
    else false

/-- The control flow of `distance_to_` (same arguments as `distance_to_`),
counting the invocations of `distance_to_`; `none` is a failing assertion. -/
def distance_to_calls {α : Type} (_v : View α) : Nat → Nat → Cursor → Cursor → Option Nat
  | 0, _, _, _ => none
  | k + 1, N, src, dst =>
    if src.which > N then (distance_to_calls _v k (N + 1) src dst).map (fun m => m + 1)
    else if src.which = N then
      if dst.which = N then some 1
      else (distance_to_calls _v k (N + 1) src dst).map (fun m => m + 1)
    else if src.which < N ∧ dst.which > N then
      (distance_to_calls _v k (N + 1) src dst).map (fun m => m + 1)
    else if dst.which = N then some 1
    else none

/-- The invocations of `distance_to_` made by `cursor::distance_to(that)`. -/
def distance_to_count {α : Type} (v : View α) (c that : Cursor) : Option Nat :=
  if c.which ≤ that.which then distance_to_calls v (cranges v) 0 c that
  else distance_to_calls v (cranges v) 0 that c

/-! ## Capabilities -/

/-- The concepts of one input range `Rng` that `concat_view` tests. -/
structure Caps where
  /-- The concept `BidirectionalRange<Rng>`. -/
  bidirectional : Bool
  /-- The concept `RandomAccessRange<Rng>`. -/
  random_access : Bool
  /-- The concept `SizedRange<Rng>`. -/
  sized : Bool
  /-- The concept `BoundedRange<Rng>`. -/
  bounded : Bool
  /-- The trait `is_infinite<Rng>::value`. -/
  infinite : Bool
  /-- The concept `SinglePass<range_iterator_t<Rng>>`. -/
  single_pass : Bool
  deriving DecidableEq, Repr

/-- Modelled from the spec: the conjunction `meta::and_c<bs...>` of `meta.hpp`
("ALL inputs"). -/
def and_c (bs : List Bool) : Bool := bs.all id

/-- Modelled from the spec: the disjunction `meta::or_c<bs...>` (and
`meta::fast_or`) of `meta.hpp` ("ANY input"). -/
def or_c (bs : List Bool) : Bool := bs.any id

/-- The constraint `CONCEPT_REQUIRES` on `cursor::prev`. -/
def has_prev (rngs : List Caps) : Bool := and_c (rngs.map Caps.bidirectional)

/-- The constraint `CONCEPT_REQUIRES` on `cursor::advance`. -/
def has_advance (rngs : List Caps) : Bool := and_c (rngs.map Caps.random_access)

/-- The constraint `CONCEPT_REQUIRES` on `cursor::distance_to`. -/
def has_distance_to (rngs : List Caps) : Bool := and_c (rngs.map Caps.random_access)

/-- The constraint `CONCEPT_REQUIRES` on `concat_view::size`. -/
def has_size (rngs : List Caps) : Bool := and_c (rngs.map Caps.sized)

/-- The two return types of `end_cursor`. -/
inductive EndType where
  /-- The type `cursor<IsConst>`. -/
  | cursor
  /-- The type `sentinel<IsConst>`. -/
  | sentinel
  deriving DecidableEq, Repr

/-- The return type of `end_cursor`: `meta::if_<meta::and_c<BoundedRange<Rngs>...>,
cursor, sentinel>`. -/
def end_cursor_type (rngs : List Caps) : EndType :=
  if and_c (rngs.map Caps.bounded) then EndType.cursor else EndType.sentinel

/-- The second argument of the base `range_facade`:
`meta::or_c<is_infinite<Rngs>::value...>::value`. -/
def view_is_infinite (rngs : List Caps) : Bool := or_c (rngs.map Caps.infinite)

/-- The member type `cursor::single_pass`: `meta::fast_or<SinglePass<...>...>`. -/
def cursor_single_pass (rngs : List Caps) : Bool := or_c (rngs.map Caps.single_pass)

/-! ## The algorithm `generate` (`include/range/v3/algorithm/generate.hpp`) -/

/-- The call `generate_fn::operator()(O begin, S end, F fun)`. The destination
is the buffer `out` with positions as offsets; the generator is its state `f`
with `call f` the result of `fun()` and the state after the call. The first
argument bounds the iterations of the loop; writing through a position outside
the buffer has no result. The buffer after the writes is returned with the
pair `{begin, fun}`. -/
def generate {β σ : Type} (call : σ → β × σ) :
    Nat → List β → Nat → Nat → σ → Option (List β × Nat × σ)
  | 0, out, b, e, f => if b ≠ e then none else some (out, b, f)
  | fuel + 1, out, b, e, f =>
    if b ≠ e then
      if b < out.length then
        generate call fuel (out.set b (call f).1) (b + 1) e (call f).2
      else none
    else some (out, b, f)

/-- The call `generate_fn::operator()(Rng &&rng, F fun)`:
`(*this)(begin(rng), end(rng), std::move(fun))`. -/
def generate_rng {β σ : Type} (call : σ → β × σ) (fuel : Nat) (out : List β) (f : σ) :
    Option (List β × Nat × σ) :=
  generate call fuel out (seqBegin out) (seqEnd out) f

/-- The results of `n` successive calls of a generator and its state after them. -/
def callN {β σ : Type} (call : σ → β × σ) : Nat → σ → List β × σ
  | 0, f => ([], f)
  | n + 1, f => ((call f).1 :: (callN call n (call f).2).1, (callN call n (call f).2).2)

/-- A generator instrumented with the number of calls made to it. -/
def counted {β σ : Type} (call : σ → β × σ) (f : σ × Nat) : β × (σ × Nat) :=
  ((call f.1).1, ((call f.1).2, f.2 + 1))

/-! ## Prefix sums of the input sizes -/

theorem offset_zero {α : Type} (v : View α) : offset v 0 = 0 := by
  simp [offset]

theorem rng_cons_zero {α : Type} (s : List α) (t : View α) : rng (s :: t) 0 = s := by
  simp [rng]

theorem rng_cons_succ {α : Type} (s : List α) (t : View α) (i : Nat) :
    rng (s :: t) (i + 1) = rng t i := by
  simp [rng]

theorem offset_cons_succ {α : Type} (s : List α) (t : View α) (i : Nat) :
    offset (s :: t) (i + 1) = s.length + offset t i := by
  simp [offset]

theorem offset_succ {α : Type} (v : View α) (i : Nat) :
    offset v (i + 1) = offset v i + (rng v i).length := by
  induction v generalizing i with
  | nil => simp [offset, rng]
  | cons s t ih =>
    cases i with
    | zero => simp [offset, rng]
    | succ j => rw [offset_cons_succ, offset_cons_succ, rng_cons_succ, ih j]; omega

theorem offset_mono {α : Type} (v : View α) {i j : Nat} (h : i ≤ j) :
    offset v i ≤ offset v j := by
  induction h with
  | refl => exact Nat.le_refl _
  | step _ ih => rw [offset_succ]; omega

theorem offset_cranges {α : Type} (v : View α) :
    offset v (cranges v) = v.flatten.length := by
  simp [offset, cranges, List.length_flatten]

theorem flat_le_total {α : Type} (v : View α) (c : Cursor)
    (hw : c.which < cranges v) (hi : c.it ≤ (rng v c.which).length) :
    flat v c ≤ v.flatten.length := by
  have h1 := offset_succ v c.which
  have h2 := offset_mono v (show c.which + 1 ≤ cranges v by omega)
  rw [offset_cranges] at h2
  unfold flat
  omega

/-- A valid position is determined by its flat offset. -/
theorem valid_flat_inj {α : Type} (v : View α) (p q : Cursor)
    (hp : Valid v p) (hq : Valid v q) (h : flat v p = flat v q) : p = q := by
  obtain ⟨pw, pi⟩ := p
  obtain ⟨qw, qi⟩ := q
  simp only [Valid, flat] at hp hq h
  have key : ∀ (i k a b : Nat), i < k → k < cranges v → a ≤ (rng v i).length →
      (a = (rng v i).length → i = cranges v - 1) → offset v i + a ≠ offset v k + b := by
    intro i k a b hik hk ha hend
    have h1 := offset_succ v i
    have h2 := offset_mono v (show i + 1 ≤ k by omega)
    have h3 : a ≠ (rng v i).length := fun e => by have := hend e; omega
    omega
  rcases Nat.lt_trichotomy pw qw with hlt | heq | hgt
  · exact absurd h (key pw qw pi qi hlt hq.1 hp.2.1 hp.2.2)
  · subst heq
    have : pi = qi := by omega
    subst this
    rfl
  · exact absurd h.symm (key qw pw qi pi hgt hp.1 hq.2.1 hq.2.2)

/-! ## The boundary skip -/

theorem satisfyAux_spec {α : Type} (v : View α) (k : Nat) (c : Cursor)
    (hk : c.which + k + 1 = cranges v) (hi : c.it ≤ (rng v c.which).length) :
    Valid v (satisfyAux v k c) ∧ flat v (satisfyAux v k c) = flat v c := by
  induction k generalizing c with
  | zero =>
    show Valid v c ∧ flat v c = flat v c
    refine ⟨⟨by omega, hi, fun _ => by omega⟩, rfl⟩
  | succ k ih =>
    unfold satisfyAux
    by_cases he : c.it = seqEnd (rng v c.which)
    · rw [if_pos he]
      have := ih ⟨c.which + 1, seqBegin (rng v (c.which + 1))⟩ (by simp only; omega)
        (by simp [seqBegin])
      refine ⟨this.1, ?_⟩
      rw [this.2]
      simp only [flat, seqBegin, seqEnd] at he ⊢
      rw [offset_succ]
      omega
    · rw [if_neg he]
      refine ⟨⟨by omega, hi, fun e => absurd e he⟩, rfl⟩

theorem satisfyAux_post {α : Type} (v : View α) (k : Nat) (c : Cursor)
    (hk : c.which + k + 1 = cranges v) :
    c.which ≤ (satisfyAux v k c).which ∧ (satisfyAux v k c).which ≤ cranges v - 1 ∧
      ((satisfyAux v k c).which = cranges v - 1 ∨
        (satisfyAux v k c).it ≠ seqEnd (rng v (satisfyAux v k c).which)) ∧
      ((satisfyAux v k c).which = c.which → satisfyAux v k c = c) ∧
      (c.which < (satisfyAux v k c).which →
        c.it = seqEnd (rng v c.which) ∧
        (satisfyAux v k c).it = seqBegin (rng v (satisfyAux v k c).which) ∧
        ∀ j, c.which < j → j < (satisfyAux v k c).which → rng v j = []) := by
  induction k generalizing c with
  | zero =>
    have e : satisfyAux v 0 c = c := rfl
    rw [e]
    exact ⟨Nat.le_refl _, by omega, Or.inl (by omega), fun _ => rfl,
      fun h => absurd h (Nat.lt_irrefl _)⟩
  | succ k ih =>
    unfold satisfyAux
    by_cases he : c.it = seqEnd (rng v c.which)
    · rw [if_pos he]
      obtain ⟨h1, h2, h3, h4, h5⟩ := ih ⟨c.which + 1, seqBegin (rng v (c.which + 1))⟩
        (by simp only; omega)
      simp only at h1 h4 h5
      refine ⟨by omega, h2, h3, fun h => by omega, fun _ => ⟨he, ?_, ?_⟩⟩
      · rcases Nat.eq_or_lt_of_le h1 with e | l
        · rw [h4 e.symm]
        · exact (h5 l).2.1
      · intro j hj1 hj2
        rcases Nat.eq_or_lt_of_le h1 with e | l
        · omega
        · rcases Nat.eq_or_lt_of_le (Nat.succ_le_of_lt hj1) with e' | l'
          · have h0 := (h5 l).1
            simp only [seqBegin, seqEnd] at h0
            rw [← e']
            exact List.length_eq_zero.mp h0.symm
          · exact (h5 l).2.2 j l' hj2
    · rw [if_neg he]
      exact ⟨Nat.le_refl _, by omega, Or.inr he, fun _ => rfl,
        fun h => absurd h (Nat.lt_irrefl _)⟩

theorem satisfy_spec {α : Type} (v : View α) (c : Cursor)
    (hw : c.which < cranges v) (hi : c.it ≤ (rng v c.which).length) :
    Valid v (satisfy v c) ∧ flat v (satisfy v c) = flat v c :=
  satisfyAux_spec v _ c (by omega) hi

theorem satisfy_of_valid {α : Type} (v : View α) (c : Cursor) (hc : Valid v c) :
    satisfy v c = c :=
  valid_flat_inj v _ _ (satisfy_spec v c hc.1 hc.2.1).1 hc (satisfy_spec v c hc.1 hc.2.1).2

theorem valid_begin_cursor {α : Type} (v : View α) (hv : v ≠ []) :
    Valid v (begin_cursor v) ∧ flat v (begin_cursor v) = 0 := by
  have hl : 0 < cranges v := List.length_pos.mpr hv
  have := satisfy_spec v ⟨0, seqBegin (rng v 0)⟩ hl (by simp [seqBegin])
  refine ⟨this.1, ?_⟩
  rw [begin_cursor, this.2]
  simp [flat, seqBegin, offset]

theorem valid_end_cursor {α : Type} (v : View α) (hv : v ≠ []) :
    Valid v (end_cursor v) ∧ flat v (end_cursor v) = v.flatten.length := by
  have hl : 0 < cranges v := List.length_pos.mpr hv
  refine ⟨⟨by simp only [end_cursor]; omega, by simp [end_cursor, seqEnd],
    fun _ => rfl⟩, ?_⟩
  have h1 := offset_succ v (cranges v - 1)
  have h2 : cranges v - 1 + 1 = cranges v := by omega
  rw [h2, offset_cranges] at h1
  simp only [flat, end_cursor, seqEnd]
  omega

/-- A valid position is the end position exactly when no element follows it. -/
theorem valid_eq_end_iff {α : Type} (v : View α) (hv : v ≠ []) (c : Cursor) (hc : Valid v c) :
    c = end_cursor v ↔ flat v c = v.flatten.length := by
  constructor
  · intro h; rw [h]; exact (valid_end_cursor v hv).2
  · intro h
    exact valid_flat_inj v _ _ hc (valid_end_cursor v hv).1
      (h.trans (valid_end_cursor v hv).2.symm)

theorem valid_it_lt {α : Type} (v : View α) (c : Cursor) (hc : Valid v c)
    (hne : c ≠ end_cursor v) : c.it < (rng v c.which).length := by
  rcases Nat.lt_or_ge c.it (rng v c.which).length with h | h
  · exact h
  · exfalso
    apply hne
    have he : c.it = (rng v c.which).length := Nat.le_antisymm hc.2.1 h
    have hw := hc.2.2 he
    obtain ⟨w, i⟩ := c
    simp only at he hw
    subst hw
    simp [end_cursor, seqEnd, he]

/-! ## Single steps -/

theorem next_spec {α : Type} (v : View α) (c : Cursor) (hc : Valid v c)
    (hlt : c.it < (rng v c.which).length) :
    next v c = some (satisfy v ⟨c.which, c.it + 1⟩) ∧
      Valid v (satisfy v ⟨c.which, c.it + 1⟩) ∧
      flat v (satisfy v ⟨c.which, c.it + 1⟩) = flat v c + 1 := by
  have hs := satisfy_spec v ⟨c.which, c.it + 1⟩ hc.1 (by simp only; omega)
  refine ⟨by simp [next, seqInc, hlt], hs.1, ?_⟩
  rw [hs.2]
  simp only [flat]
  omega

theorem next_eq_some {α : Type} (v : View α) (c q : Cursor) (hc : Valid v c)
    (h : next v c = some q) : Valid v q ∧ flat v q = flat v c + 1 := by
  by_cases hlt : c.it < (rng v c.which).length
  · have hs := next_spec v c hc hlt
    rw [hs.1] at h
    cases h
    exact hs.2
  · simp [next, seqInc, hlt] at h

theorem nextN_eq_some {α : Type} (v : View α) (n : Nat) (c q : Cursor) (hc : Valid v c)
    (h : nextN v n c = some q) : Valid v q ∧ flat v q = flat v c + n := by
  induction n generalizing c with
  | zero =>
    simp only [nextN, Option.some.injEq] at h
    subst h
    exact ⟨hc, rfl⟩
  | succ n ih =>
    simp only [nextN] at h
    cases hn : next v c with
    | none => rw [hn] at h; simp at h
    | some c' =>
      rw [hn] at h
      have h1 := next_eq_some v c c' hc hn
      have h2 := ih c' h1.1 h
      exact ⟨h2.1, by rw [h2.2, h1.2]; omega⟩

theorem nextN_spec {α : Type} (v : View α) (hv : v ≠ []) (n : Nat) (c : Cursor) (hc : Valid v c)
    (hn : flat v c + n ≤ v.flatten.length) :
    ∃ q, nextN v n c = some q ∧ Valid v q ∧ flat v q = flat v c + n := by
  induction n generalizing c with
  | zero => exact ⟨c, rfl, hc, rfl⟩
  | succ n ih =>
    have hne : c ≠ end_cursor v := by
      intro h
      have := (valid_eq_end_iff v hv c hc).mp h
      omega
    have hs := next_spec v c hc (valid_it_lt v c hc hne)
    obtain ⟨q, h1, h2, h3⟩ := ih _ hs.2.1 (by rw [hs.2.2]; omega)
    refine ⟨q, ?_, h2, by rw [h3, hs.2.2]; omega⟩
    simp only [nextN, hs.1, Option.some_bind]
    exact h1

theorem prev_fun_spec {α : Type} (v : View α) (N it : Nat) (hN : N < cranges v)
    (hi : it ≤ (rng v N).length) (hpos : 0 < offset v N + it) :
    ∃ q, prev_fun v N it = some q ∧ Valid v q ∧ flat v q + 1 = offset v N + it := by
  induction N generalizing it with
  | zero =>
    have h0 : it ≠ 0 := by rw [offset_zero] at hpos; omega
    refine ⟨⟨0, it - 1⟩, ?_, ⟨hN, by simp only; omega, fun e => by simp only at e; omega⟩, ?_⟩
    · simp only [prev_fun, seqBegin, seqDec]
      rw [if_pos h0, if_pos ⟨by omega, hi⟩]
      rfl
    · simp only [flat, offset_zero]; omega
  | succ N ih =>
    unfold prev_fun
    by_cases h0 : it = seqBegin (rng v (N + 1))
    · rw [if_pos h0]
      simp only [seqBegin] at h0
      have hoff := offset_succ v N
      obtain ⟨q, h1, h2, h3⟩ := ih (seqEnd (rng v N)) (by omega) (by simp [seqEnd])
        (by simp only [seqEnd]; omega)
      exact ⟨q, h1, h2, by simp only [seqEnd] at h3; omega⟩
    · rw [if_neg h0]
      simp only [seqBegin] at h0
      refine ⟨⟨N + 1, it - 1⟩, ?_, ⟨hN, by simp only; omega, fun e => by simp only at e; omega⟩, ?_⟩
      · simp only [seqDec]
        rw [if_pos ⟨by omega, hi⟩]
        rfl
      · simp only [flat]; omega

theorem prev_spec {α : Type} (v : View α) (c : Cursor) (hc : Valid v c) (hpos : 0 < flat v c) :
    ∃ q, prev v c = some q ∧ Valid v q ∧ flat v q + 1 = flat v c :=
  prev_fun_spec v c.which c.it hc.1 hc.2.1 hpos

/-- At the first position of the concatenation `prev` has no result. -/
theorem prev_fun_none {α : Type} (v : View α) (N it : Nat) (h0 : offset v N + it = 0) :
    prev_fun v N it = none := by
  induction N generalizing it with
  | zero =>
    have : it = 0 := by omega
    simp [prev_fun, seqBegin, this]
  | succ N ih =>
    have hoff := offset_succ v N
    have : it = 0 := by omega
    subst this
    unfold prev_fun
    rw [if_pos (by simp [seqBegin])]
    exact ih _ (by simp only [seqEnd]; omega)

/-! ## Jumps -/

theorem satisfyAux_which_ge {α : Type} (v : View α) (k : Nat) (c : Cursor) :
    c.which ≤ (satisfyAux v k c).which := by
  induction k generalizing c with
  | zero => exact Nat.le_refl _
  | succ k ih =>
    unfold satisfyAux
    split
    · have := ih ⟨c.which + 1, seqBegin (rng v (c.which + 1))⟩
      simp only at this
      omega
    · exact Nat.le_refl _

theorem satisfy_at_end_which {α : Type} (v : View α) (w : Nat) (hw : w + 1 < cranges v) :
    w < (satisfy v ⟨w, (rng v w).length⟩).which := by
  unfold satisfy
  have hk : cranges v - 1 - w = (cranges v - 2 - w) + 1 := by omega
  simp only [hk]
  unfold satisfyAux
  rw [if_pos (by simp [seqEnd])]
  have := satisfyAux_which_ge v (cranges v - 2 - w) ⟨w + 1, seqBegin (rng v (w + 1))⟩
  simp only at this ⊢
  omega

theorem seqAdvanceBounded_fwd_hit (it bound : Nat) (n : Int) (h0 : 0 ≤ n) (hb : it ≤ bound)
    (hn : (bound : Int) - it ≤ n) :
    seqAdvanceBounded it n bound = some (bound, n - ((bound : Int) - it)) := by
  unfold seqAdvanceBounded
  simp only
  rw [if_pos h0, if_neg (by omega), if_pos hn]

theorem seqAdvanceBounded_fwd_in (it bound : Nat) (n : Int) (h0 : 0 ≤ n) (hb : it ≤ bound)
    (hn : n < (bound : Int) - it) :
    seqAdvanceBounded it n bound = some (((it : Int) + n).toNat, 0) := by
  unfold seqAdvanceBounded
  simp only
  rw [if_pos h0, if_neg (by omega), if_neg (by omega)]

theorem seqAdvanceBounded_rev_hit (it bound : Nat) (n : Int) (h0 : n < 0) (hb : bound ≤ it)
    (hn : n ≤ (bound : Int) - it) :
    seqAdvanceBounded it n bound = some (bound, n - ((bound : Int) - it)) := by
  unfold seqAdvanceBounded
  simp only
  rw [if_neg (by omega), if_neg (by omega), if_pos hn]

theorem seqAdvanceBounded_rev_in (it bound : Nat) (n : Int) (h0 : n < 0) (hb : bound ≤ it)
    (hn : (bound : Int) - it < n) :
    seqAdvanceBounded it n bound = some (((it : Int) + n).toNat, 0) := by
  unfold seqAdvanceBounded
  simp only
  rw [if_neg (by omega), if_neg (by omega), if_neg (by omega)]

theorem seqAdvance_in {α : Type} (s : List α) (it : Nat) (n : Int) (h0 : 0 ≤ (it : Int) + n)
    (h1 : (it : Int) + n ≤ s.length) :
    seqAdvance s it n = some ((it : Int) + n).toNat := by
  unfold seqAdvance
  rw [if_pos ⟨h0, h1⟩]

theorem advance_last {α : Type} (v : View α) (c : Cursor) (n : Int) (hw : c.which + 1 = cranges v)
    (h0 : 0 ≤ (c.it : Int) + n) (h1 : (flat v c : Int) + n ≤ v.flatten.length) :
    ∃ q, (seqAdvance (rng v c.which) c.it n).map (Cursor.mk c.which) = some q ∧ Valid v q ∧
      (flat v q : Int) = flat v c + n := by
  have hoff := offset_succ v c.which
  rw [hw, offset_cranges] at hoff
  simp only [flat] at h1
  have h2 : (c.it : Int) + n ≤ (rng v c.which).length := by omega
  refine ⟨⟨c.which, ((c.it : Int) + n).toNat⟩, by rw [seqAdvance_in _ _ _ h0 h2]; rfl,
    ⟨by simp only; omega, by simp only; omega, fun _ => by simp only; omega⟩, ?_⟩
  simp only [flat]
  omega

theorem advance_fwd_fun_spec {α : Type} (v : View α) (fuel : Nat) (c : Cursor) (n : Int)
    (hc : Valid v c) (h0 : 0 < n) (h1 : (flat v c : Int) + n ≤ v.flatten.length)
    (hf : cranges v ≤ fuel + c.which + 1) :
    ∃ q, advance_fwd_fun v fuel c n = some q ∧ Valid v q ∧ (flat v q : Int) = flat v c + n := by
  induction fuel generalizing c n with
  | zero =>
    have hw : c.which = cranges v - 1 := by have := hc.1; omega
    unfold advance_fwd_fun
    rw [if_pos hw]
    exact advance_last v c n (by have := hc.1; omega) (by omega) h1
  | succ fuel ih =>
    unfold advance_fwd_fun
    by_cases hw : c.which = cranges v - 1
    · rw [if_pos hw]
      exact advance_last v c n (by have := hc.1; omega) (by omega) h1
    · rw [if_neg hw]
      have hlt : c.which + 1 < cranges v := by have := hc.1; omega
      by_cases hn : ((rng v c.which).length : Int) - c.it ≤ n
      · rw [show seqEnd (rng v c.which) = (rng v c.which).length from rfl,
          seqAdvanceBounded_fwd_hit _ _ _ (by omega) hc.2.1 hn]
        simp only
        have hs := satisfy_spec v ⟨c.which, (rng v c.which).length⟩ hc.1 (Nat.le_refl _)
        have hwh := satisfy_at_end_which v c.which hlt
        have hfl : flat v ⟨c.which, (rng v c.which).length⟩ + c.it
            = flat v c + (rng v c.which).length := by simp only [flat]; omega
        by_cases hr : n - (((rng v c.which).length : Int) - c.it) ≠ 0
        · rw [if_pos hr]
          obtain ⟨q, q1, q2, q3⟩ := ih (satisfy v ⟨c.which, (rng v c.which).length⟩)
            (n - (((rng v c.which).length : Int) - c.it)) hs.1 (by omega)
            (by rw [hs.2]; omega) (by omega)
          exact ⟨q, q1, q2, by rw [q3, hs.2]; omega⟩
        · rw [if_neg hr]
          exact ⟨_, rfl, hs.1, by rw [hs.2]; omega⟩
      · rw [show seqEnd (rng v c.which) = (rng v c.which).length from rfl,
          seqAdvanceBounded_fwd_in _ _ _ (by omega) hc.2.1 (by omega)]
        simp only [ne_eq, not_true_eq_false, if_false]
        have hs := satisfy_spec v ⟨c.which, ((c.it : Int) + n).toNat⟩ hc.1 (by simp only; omega)
        exact ⟨_, rfl, hs.1, by rw [hs.2]; simp only [flat]; omega⟩

theorem advance_rev_fun_spec {α : Type} (v : View α) (fuel N it : Nat) (n : Int)
    (hN : N < cranges v) (hi : it ≤ (rng v N).length) (h0 : n < 0)
    (h1 : 0 ≤ (offset v N : Int) + it + n)
    (hf : 2 * N ≤ fuel + (if it = 0 then 1 else 0)) :
    ∃ q, advance_rev_fun v fuel N it n = some q ∧ Valid v q ∧
      (flat v q : Int) = (offset v N : Int) + it + n := by
  induction fuel generalizing N it n with
  | zero =>
    have hN0 : N = 0 := by split at hf <;> omega
    subst hN0
    unfold advance_rev_fun
    rw [offset_zero] at h1
    refine ⟨⟨0, ((it : Int) + n).toNat⟩, by rw [seqAdvance_in _ _ _ (by omega) (by omega)]; rfl,
      ⟨hN, by simp only; omega, fun e => by simp only at e; omega⟩, ?_⟩
    simp only [flat, offset_zero]; omega
  | succ fuel ih =>
    cases N with
    | zero =>
      unfold advance_rev_fun
      rw [offset_zero] at h1
      refine ⟨⟨0, ((it : Int) + n).toNat⟩, by rw [seqAdvance_in _ _ _ (by omega) (by omega)]; rfl,
        ⟨hN, by simp only; omega, fun e => by simp only at e; omega⟩, ?_⟩
      simp only [flat, offset_zero]; omega
    | succ N =>
      unfold advance_rev_fun
      have hoff := offset_succ v N
      by_cases hb : it = seqBegin (rng v (N + 1))
      · rw [if_pos hb]
        simp only [seqBegin] at hb
        subst hb
        obtain ⟨q, q1, q2, q3⟩ := ih N (seqEnd (rng v N)) n (by omega) (Nat.le_refl _) h0
          (by simp only [seqEnd]; omega) (by simp only [if_pos] at hf; split <;> omega)
        exact ⟨q, q1, q2, by rw [q3]; simp only [seqEnd]; omega⟩
      · rw [if_neg hb]
        simp only [seqBegin] at hb ⊢
        rw [if_neg hb] at hf
        by_cases hn : n ≤ ((0 : Nat) : Int) - it
        · rw [seqAdvanceBounded_rev_hit _ _ _ h0 (Nat.zero_le _) hn]
          simp only
          by_cases hr : n - (((0 : Nat) : Int) - it) ≠ 0
          · rw [if_pos hr]
            obtain ⟨q, q1, q2, q3⟩ := ih (N + 1) 0 (n - (((0 : Nat) : Int) - it)) hN
              (Nat.zero_le _) (by omega) (by omega) (by simp only [if_pos]; omega)
            exact ⟨q, q1, q2, by rw [q3]; omega⟩
          · rw [if_neg hr]
            refine ⟨_, rfl, ⟨hN, Nat.zero_le _, fun e => by simp only at e; omega⟩, ?_⟩
            simp only [flat]; omega
        · rw [seqAdvanceBounded_rev_in _ _ _ h0 (Nat.zero_le _) (by omega)]
          simp only [ne_eq, not_true_eq_false, if_false]
          refine ⟨_, rfl, ⟨hN, by simp only; omega, fun e => by simp only at e; omega⟩, ?_⟩
          simp only [flat]; omega

/-- A jump inside the concatenation lands on the valid position whose flat
offset is `n` further. -/
theorem advance_spec {α : Type} (v : View α) (c : Cursor) (n : Int) (hc : Valid v c)
    (h0 : 0 ≤ (flat v c : Int) + n) (h1 : (flat v c : Int) + n ≤ v.flatten.length) :
    ∃ q, advance v c n = some q ∧ Valid v q ∧ (flat v q : Int) = flat v c + n := by
  unfold advance
  by_cases hp : 0 < n
  · rw [if_pos hp]
    exact advance_fwd_fun_spec v _ c n hc hp h1 (by omega)
  · rw [if_neg hp]
    by_cases hm : n < 0
    · rw [if_pos hm]
      have := advance_rev_fun_spec v (2 * cranges v) c.which c.it n hc.1 hc.2.1 hm
        (by simp only [flat] at h0; omega) (by have := hc.1; split <;> omega)
      simpa only [flat, Nat.cast_add] using this
    · rw [if_neg hm]
      exact ⟨c, rfl, hc, by omega⟩

/-! ## Distance -/

theorem distance_to__spec {α : Type} (v : View α) (k N : Nat) (src dst : Cursor)
    (hk : k + N = cranges v) (hsd : src.which ≤ dst.which) (hd : dst.which < cranges v)
    (hN : N ≤ dst.which) :
    distance_to_ v k N src dst =
      some ((flat v dst : Int) - (if N ≤ src.which then (flat v src : Int) else offset v N)) := by
  induction k generalizing N with
  | zero => omega
  | succ k ih =>
    unfold distance_to_
    have hoff := offset_succ v N
    by_cases h1 : src.which > N
    · have hN1 : N + 1 ≤ src.which := h1
      rw [if_pos h1, ih (N + 1) (by omega) (by omega), if_pos hN1, if_pos (Nat.le_of_lt h1)]
    · rw [if_neg h1]
      by_cases h2 : src.which = N
      · rw [if_pos h2, if_pos (Nat.le_of_eq h2.symm)]
        by_cases h3 : dst.which = N
        · rw [if_pos h3]
          simp only [seqDistance, flat, h2, h3]
          congr 1
          push_cast
          omega
        · have hN1 : ¬ N + 1 ≤ src.which := by omega
          rw [if_neg h3, ih (N + 1) (by omega) (by omega), if_neg hN1]
          simp only [seqDistance, seqEnd, flat, h2, Option.map_some']
          congr 1
          push_cast
          omega
      · have hN0 : ¬ N ≤ src.which := by omega
        rw [if_neg h2, if_neg hN0]
        by_cases h3 : dst.which > N
        · have hN1 : ¬ N + 1 ≤ src.which := by omega
          have h4 : src.which < N ∧ dst.which > N := ⟨by omega, h3⟩
          rw [if_pos h4, ih (N + 1) (by omega) (by omega), if_neg hN1]
          simp only [Option.map_some']
          congr 1
          omega
        · have h4 : dst.which = N := by omega
          have h5 : ¬ (src.which < N ∧ dst.which > N) := fun h => h3 h.2
          rw [if_neg h5, if_pos h4]
          simp only [seqDistance, seqBegin, flat, h4]
          congr 1
          omega

/-- The distance between two positions of the view is the difference of their
flat offsets. -/
theorem distance_to_spec {α : Type} (v : View α) (p q : Cursor)
    (hp : p.which < cranges v) (hq : q.which < cranges v) :
    distance_to v p q = some ((flat v q : Int) - flat v p) := by
  unfold distance_to
  by_cases h : p.which ≤ q.which
  · rw [if_pos h, distance_to__spec v (cranges v) 0 p q rfl h hq (Nat.zero_le _),
      if_pos (Nat.zero_le _)]
  · rw [if_neg h, distance_to__spec v (cranges v) 0 q p rfl (by omega) hp (Nat.zero_le _),
      if_pos (Nat.zero_le _)]
    simp only [Option.map_some']
    congr 1
    omega

/-! ## Reading and traversing -/

theorem flatten_getElem?_offset {α : Type} (v : View α) (i a : Nat)
    (ha : a < (rng v i).length) : v.flatten[offset v i + a]? = (rng v i)[a]? := by
  induction v generalizing i with
  | nil => simp [rng] at ha
  | cons s t ih =>
    cases i with
    | zero =>
      rw [rng_cons_zero] at ha ⊢
      rw [offset_zero, Nat.zero_add, List.flatten_cons, List.getElem?_append_left ha]
    | succ j =>
      rw [rng_cons_succ] at ha ⊢
      rw [offset_cons_succ, List.flatten_cons, List.getElem?_append_right (by omega)]
      rw [show s.length + offset t j + a - s.length = offset t j + a by omega]
      exact ih j ha

theorem current_spec {α : Type} (v : View α) (c : Cursor)
    (hlt : c.it < (rng v c.which).length) : current v c = v.flatten[flat v c]? := by
  unfold current seqDeref flat
  exact (flatten_getElem?_offset v c.which c.it hlt).symm

theorem traverse_spec {α : Type} (v : View α) (hv : v ≠ []) (atEnd : Cursor → Bool)
    (hEnd : ∀ c, atEnd c = true ↔ c = end_cursor v) (fuel : Nat) (c : Cursor) (hc : Valid v c)
    (hf : v.flatten.length ≤ flat v c + fuel) :
    traverse v atEnd fuel c = some (v.flatten.drop (flat v c)) := by
  induction fuel generalizing c with
  | zero =>
    have hle := flat_le_total v c hc.1 hc.2.1
    have he : flat v c = v.flatten.length := by omega
    have : atEnd c = true := (hEnd c).mpr ((valid_eq_end_iff v hv c hc).mpr he)
    simp [traverse, this, he]
  | succ fuel ih =>
    unfold traverse
    by_cases he : atEnd c = true
    · have := (valid_eq_end_iff v hv c hc).mp ((hEnd c).mp he)
      simp [he, this]
    · have hne : c ≠ end_cursor v := fun h => he ((hEnd c).mpr h)
      have hlt := valid_it_lt v c hc hne
      have hn := next_spec v c hc hlt
      have hfl : flat v c < v.flatten.length := by
        have hle := flat_le_total v c hc.1 hc.2.1
        have := mt (valid_eq_end_iff v hv c hc).mpr hne
        omega
      rw [if_neg he, current_spec v c hlt, hn.1, List.getElem?_eq_getElem hfl]
      simp only
      rw [ih _ hn.2.1 (by rw [hn.2.2]; omega), hn.2.2, Option.map_some',
        ← List.drop_eq_getElem_cons hfl]

theorem equal_iff (c pos : Cursor) : equal c pos = true ↔ c = pos := by
  obtain ⟨a, b⟩ := c
  obtain ⟨a', b'⟩ := pos
  simp [equal]

theorem sentinel_equal_iff {α : Type} (v : View α) (pos : Cursor) :
    (sentinel v).equal v pos = true ↔ pos = end_cursor v := by
  obtain ⟨a, b⟩ := pos
  simp [Sentinel.equal, sentinel, end_cursor]

theorem valid_flat_pos {α : Type} (v : View α) (hv : v ≠ []) (p : Cursor) (hp : Valid v p)
    (hne : p ≠ begin_cursor v) : 0 < flat v p := by
  rcases Nat.eq_zero_or_pos (flat v p) with h | h
  · exact absurd (valid_flat_inj v _ _ hp (valid_begin_cursor v hv).1
      (h.trans (valid_begin_cursor v hv).2.symm)) hne
  · exact h

theorem valid_flat_lt {α : Type} (v : View α) (hv : v ≠ []) (p : Cursor) (hp : Valid v p)
    (hne : p ≠ end_cursor v) : flat v p < v.flatten.length := by
  have hle := flat_le_total v p hp.1 hp.2.1
  have := mt (valid_eq_end_iff v hv p hp).mpr hne
  omega

theorem traverse_begin_spec {α : Type} (v : View α) (hv : v ≠ []) (atEnd : Cursor → Bool)
    (hEnd : ∀ c, atEnd c = true ↔ c = end_cursor v) (fuel : Nat)
    (hf : v.flatten.length ≤ fuel) :
    traverse v atEnd fuel (begin_cursor v) = some v.flatten := by
  have hb := valid_begin_cursor v hv
  have h1 := traverse_spec v hv atEnd hEnd fuel _ hb.1 (by omega)
  rw [hb.2, List.drop_zero] at h1
  exact h1

theorem offset_eq_add_sizesBetween {α : Type} (v : View α) (i k : Nat) (h : i < k) :
    offset v k = offset v (i + 1) + sizesBetween v i k := by
  have := List.sum_take_add_sum_drop ((v.take k).map List.length) (i + 1)
  rw [← List.map_take, ← List.map_drop, List.take_take, Nat.min_eq_left (by omega)] at this
  simp only [offset, sizesBetween]
  omega

theorem size_foldl (m : Nat) (hm : 0 < m) (l : List Nat) (a : Nat) (ha : a < m) :
    l.foldl (fun acc s => (acc + s) % m) a = (a + l.sum) % m := by
  induction l generalizing a with
  | nil => simp [Nat.mod_eq_of_lt ha]
  | cons x t ih =>
    rw [List.foldl_cons, ih _ (Nat.mod_lt _ hm), List.sum_cons, Nat.mod_add_mod, Nat.add_assoc]

/-! ## The properties of the view -/

/-- C1 (flattening): for a view over at least one sequence, the traversal from
`begin_cursor` that takes `current()` and then `next()` until the position
equals the end, be it the end cursor or the sentinel, finishes within as many
iterations as the inputs have elements and yields the concatenation of the
inputs in their order. -/
theorem traverse_eq_flatten {α : Type} (v : View α) (hv : v ≠ []) (fuel : Nat)
    (hf : v.flatten.length ≤ fuel) :
    traverse v (fun c => equal c (end_cursor v)) fuel (begin_cursor v) = some v.flatten ∧
      traverse v ((sentinel v).equal v) fuel (begin_cursor v) = some v.flatten := by
  exact ⟨traverse_begin_spec v hv _ (fun c => equal_iff c (end_cursor v)) fuel hf,
    traverse_begin_spec v hv _ (sentinel_equal_iff v) fuel hf⟩

/-- The inputs `[1,2]`, `[]`, `[3]` yield `1, 2, 3`. -/
theorem traverse_eq_flatten_witness :
    ([[1, 2], [], [3]] : View Nat) ≠ [] ∧
      ([[1, 2], [], [3]] : View Nat).flatten.length ≤ 3 ∧
      (traverse [[1, 2], [], [3]] (fun c => equal c (end_cursor [[1, 2], [], [3]])) 3
          (begin_cursor [[1, 2], [], [3]]) = some [1, 2, 3] ∧
        traverse [[1, 2], [], [3]] ((sentinel [[1, 2], [], [3]]).equal [[1, 2], [], [3]]) 3
          (begin_cursor [[1, 2], [], [3]]) = some [1, 2, 3]) :=
  ⟨by decide, by decide, traverse_eq_flatten [[1, 2], [], [3]] (by decide) 3 (by decide)⟩

/-- C2 (core position invariant): in a view over at least one sequence the
positions built by `begin_cursor` and `end_cursor` are valid, and from a valid
position `next()` (not at the end), `prev()` (not at the begin) and
`advance(n)` (target between begin and end, `n` of any sign) return a valid
position. -/
theorem valid_preserved {α : Type} (v : View α) (hv : v ≠ []) :
    Valid v (begin_cursor v) ∧ Valid v (end_cursor v) ∧
      ∀ p, Valid v p →
        (p ≠ end_cursor v → ∃ q, next v p = some q ∧ Valid v q) ∧
        (p ≠ begin_cursor v → ∃ q, prev v p = some q ∧ Valid v q) ∧
        (∀ n : Int, 0 ≤ (flat v p : Int) + n → (flat v p : Int) + n ≤ v.flatten.length →
          ∃ q, advance v p n = some q ∧ Valid v q) := by
  refine ⟨(valid_begin_cursor v hv).1, (valid_end_cursor v hv).1, fun p hp => ⟨?_, ?_, ?_⟩⟩
  · intro hne
    have h := next_spec v p hp (valid_it_lt v p hp hne)
    exact ⟨_, h.1, h.2.1⟩
  · intro hne
    obtain ⟨q, h1, h2, _⟩ := prev_spec v p hp (valid_flat_pos v hv p hp hne)
    exact ⟨q, h1, h2⟩
  · intro n h0 h1
    obtain ⟨q, q1, q2, _⟩ := advance_spec v p n hp h0 h1
    exact ⟨q, q1, q2⟩

/-- In `[1,2] ++ [] ++ [3]` the begin and end positions are valid, and from the
valid position `(0, 1)` the results of `next()`, `prev()` and `advance(2)` are valid. -/
theorem valid_preserved_witness :
    ([[1, 2], [], [3]] : View Nat) ≠ [] ∧
      Valid ([[1, 2], [], [3]] : View Nat) (begin_cursor [[1, 2], [], [3]]) ∧
      Valid ([[1, 2], [], [3]] : View Nat) (end_cursor [[1, 2], [], [3]]) ∧
      Valid ([[1, 2], [], [3]] : View Nat) ⟨0, 1⟩ ∧
      (⟨0, 1⟩ : Cursor) ≠ end_cursor ([[1, 2], [], [3]] : View Nat) ∧
      (∃ q, next ([[1, 2], [], [3]] : View Nat) ⟨0, 1⟩ = some q ∧
        Valid ([[1, 2], [], [3]] : View Nat) q) ∧
      (⟨0, 1⟩ : Cursor) ≠ begin_cursor ([[1, 2], [], [3]] : View Nat) ∧
      (∃ q, prev ([[1, 2], [], [3]] : View Nat) ⟨0, 1⟩ = some q ∧
        Valid ([[1, 2], [], [3]] : View Nat) q) ∧
      0 ≤ (flat ([[1, 2], [], [3]] : View Nat) ⟨0, 1⟩ : Int) + 2 ∧
      (flat ([[1, 2], [], [3]] : View Nat) ⟨0, 1⟩ : Int) + 2
        ≤ ([[1, 2], [], [3]] : View Nat).flatten.length ∧
      ∃ q, advance ([[1, 2], [], [3]] : View Nat) ⟨0, 1⟩ 2 = some q ∧
        Valid ([[1, 2], [], [3]] : View Nat) q :=
  ⟨by decide, (valid_preserved [[1, 2], [], [3]] (by decide)).1,
    (valid_preserved [[1, 2], [], [3]] (by decide)).2.1, by decide, by decide,
    ((valid_preserved [[1, 2], [], [3]] (by decide)).2.2 ⟨0, 1⟩ (by decide)).1 (by decide),
    by decide,
    ((valid_preserved [[1, 2], [], [3]] (by decide)).2.2 ⟨0, 1⟩ (by decide)).2.1 (by decide),
    by decide, by decide,
    ((valid_preserved [[1, 2], [], [3]] (by decide)).2.2 ⟨0, 1⟩ (by decide)).2.2 2
      (by decide) (by decide)⟩

/-- C3 (step/jump consistency): from a valid position, for every `n` not larger
than the number of elements up to the end, `n` calls of `next()` and the single
jump `advance(n)` both succeed and give the same position. -/
theorem nextN_eq_advance {α : Type} (v : View α) (hv : v ≠ []) (p : Cursor) (hp : Valid v p)
    (n : Nat) (hn : n ≤ v.flatten.length - flat v p) :
    ∃ q, nextN v n p = some q ∧ advance v p (n : Int) = some q := by
  have hle := flat_le_total v p hp.1 hp.2.1
  obtain ⟨q, q1, q2, q3⟩ := nextN_spec v hv n p hp (by omega)
  obtain ⟨r, r1, r2, r3⟩ := advance_spec v p (n : Int) hp (by omega) (by omega)
  have : q = r := valid_flat_inj v q r q2 r2 (by omega)
  exact ⟨q, q1, this ▸ r1⟩

/-- Five single steps from the begin of `[1,2] ++ [3,4,5] ++ [6]` equal `advance(5)`. -/
theorem nextN_eq_advance_witness :
    ([[1, 2], [3, 4, 5], [6]] : View Nat) ≠ [] ∧
      Valid ([[1, 2], [3, 4, 5], [6]] : View Nat) (begin_cursor [[1, 2], [3, 4, 5], [6]]) ∧
      5 ≤ ([[1, 2], [3, 4, 5], [6]] : View Nat).flatten.length
        - flat [[1, 2], [3, 4, 5], [6]] (begin_cursor [[1, 2], [3, 4, 5], [6]]) ∧
      ∃ q, nextN [[1, 2], [3, 4, 5], [6]] 5 (begin_cursor [[1, 2], [3, 4, 5], [6]]) = some q ∧
        advance [[1, 2], [3, 4, 5], [6]] (begin_cursor [[1, 2], [3, 4, 5], [6]]) ((5 : Nat) : Int)
          = some q :=
  ⟨by decide, by decide, by decide,
    nextN_eq_advance [[1, 2], [3, 4, 5], [6]] (by decide) _ (by decide) 5 (by decide)⟩

/-- C4 (distance/jump inverse): when `q` is reached from the valid position
`p` by some number of `next()` calls (zero included), `p.distance_to(q)`
returns a distance and `advance` by it from `p` returns `q`. -/
theorem advance_distance_to {α : Type} (v : View α) (p q : Cursor) (hp : Valid v p)
    (hr : ∃ n, nextN v n p = some q) :
    ∃ d, distance_to v p q = some d ∧ advance v p d = some q := by
  obtain ⟨n, hn⟩ := hr
  have hq := nextN_eq_some v n p q hp hn
  have hle := flat_le_total v q hq.1.1 hq.1.2.1
  refine ⟨_, distance_to_spec v p q hp.1 hq.1.1, ?_⟩
  obtain ⟨r, r1, r2, r3⟩ := advance_spec v p ((flat v q : Int) - flat v p) hp (by omega) (by omega)
  have : r = q := valid_flat_inj v r q r2 hq.1 (by omega)
  exact this ▸ r1

/-- In `[1,2] ++ [] ++ [3]` the end `(2, 1)` is three steps after the begin, and
jumping by the distance from the begin lands on it. -/
theorem advance_distance_to_witness :
    Valid ([[1, 2], [], [3]] : View Nat) ⟨0, 0⟩ ∧
      (∃ n, nextN ([[1, 2], [], [3]] : View Nat) n ⟨0, 0⟩ = some ⟨2, 1⟩) ∧
      ∃ d, distance_to ([[1, 2], [], [3]] : View Nat) ⟨0, 0⟩ ⟨2, 1⟩ = some d ∧
        advance ([[1, 2], [], [3]] : View Nat) ⟨0, 0⟩ d = some ⟨2, 1⟩ :=
  ⟨by decide, ⟨3, by decide⟩,
    advance_distance_to [[1, 2], [], [3]] ⟨0, 0⟩ ⟨2, 1⟩ (by decide) ⟨3, by decide⟩⟩

theorem next_unchecked_of_next {α : Type} (v : View α) (c q : Cursor)
    (h : next v c = some q) : next_unchecked v c = q := by
  unfold next at h
  by_cases hlt : c.it < (rng v c.which).length
  · simp only [seqInc, if_pos hlt, Option.some.injEq] at h
    exact h
  · simp [seqInc, hlt] at h

theorem seqDecUnchecked_of_seqDec {α : Type} (s : List α) (it k : Nat) (r : Cursor)
    (hr : (seqDec s it).map (Cursor.mk k) = some r) :
    (seqDecUnchecked it).map (Cursor.mk k) = some r := by
  unfold seqDec at hr
  by_cases hc : 0 < it ∧ it ≤ s.length
  · rw [if_pos hc] at hr
    rw [seqDecUnchecked, if_pos hc.1]
    exact hr
  · rw [if_neg hc] at hr
    cases hr

theorem prev_fun_unchecked_of_prev_fun {α : Type} (v : View α) (N it : Nat) (q : Cursor)
    (h : prev_fun v N it = some q) : prev_fun_unchecked v N it = some q := by
  induction N generalizing it with
  | zero =>
    unfold prev_fun at h
    unfold prev_fun_unchecked
    by_cases h0 : it ≠ seqBegin (rng v 0)
    · rw [if_pos h0] at h ⊢
      exact seqDecUnchecked_of_seqDec _ _ _ _ h
    · rw [if_neg h0] at h
      cases h
  | succ N ih =>
    unfold prev_fun at h
    unfold prev_fun_unchecked
    by_cases h0 : it = seqBegin (rng v (N + 1))
    · rw [if_pos h0] at h ⊢
      exact ih _ h
    · rw [if_neg h0] at h ⊢
      exact seqDecUnchecked_of_seqDec _ _ _ _ h

theorem prev_unchecked_of_prev {α : Type} (v : View α) (c q : Cursor)
    (h : prev v c = some q) : prev_unchecked v c = some q :=
  prev_fun_unchecked_of_prev_fun v c.which c.it q h

/-- C6, as stated, fails at the begin position: in `[1,2] ++ [3]` the begin
`(0, 0)` is a valid position that is not at end, and `prev()` trips its
assertion there, so `next(prev(p))` is not `p`. -/
theorem next_prev_at_begin_counterexample :
    Valid ([[1, 2], [3]] : View Nat) ⟨0, 0⟩ ∧
      (⟨0, 0⟩ : Cursor) ≠ end_cursor ([[1, 2], [3]] : View Nat) ∧
      (⟨0, 0⟩ : Cursor) = begin_cursor ([[1, 2], [3]] : View Nat) ∧
      prev ([[1, 2], [3]] : View Nat) ⟨0, 0⟩ = none ∧
      (prev ([[1, 2], [3]] : View Nat) ⟨0, 0⟩).bind (next [[1, 2], [3]]) ≠ some ⟨0, 0⟩ := by
  decide

/-- C6 (amended): for every valid position `p` that is not at the begin,
`prev()` returns a position and `next()` of that position returns `p`. -/
theorem next_prev {α : Type} (v : View α) (hv : v ≠ []) (p : Cursor) (hp : Valid v p)
    (hne : p ≠ begin_cursor v) :
    ∃ q, prev v p = some q ∧ next v q = some p := by
  obtain ⟨q, q1, q2, q3⟩ := prev_spec v p hp (valid_flat_pos v hv p hp hne)
  have hle := flat_le_total v p hp.1 hp.2.1
  have hqe : q ≠ end_cursor v := by
    intro h
    have := (valid_eq_end_iff v hv q q2).mp h
    omega
  have h := next_spec v q q2 (valid_it_lt v q q2 hqe)
  have : satisfy v ⟨q.which, q.it + 1⟩ = p := valid_flat_inj v _ p h.2.1 hp (by omega)
  exact ⟨q, q1, this ▸ h.1⟩

/-- In `[1,2] ++ [] ++ [3]` stepping back from `(2, 0)` crosses the empty
sequence and stepping forward returns to `(2, 0)`. -/
theorem next_prev_witness :
    ([[1, 2], [], [3]] : View Nat) ≠ [] ∧ Valid ([[1, 2], [], [3]] : View Nat) ⟨2, 0⟩ ∧
      (⟨2, 0⟩ : Cursor) ≠ begin_cursor ([[1, 2], [], [3]] : View Nat) ∧
      ∃ q, prev ([[1, 2], [], [3]] : View Nat) ⟨2, 0⟩ = some q ∧
        next ([[1, 2], [], [3]] : View Nat) q = some ⟨2, 0⟩ :=
  ⟨by decide, by decide, by decide,
    next_prev [[1, 2], [], [3]] (by decide) ⟨2, 0⟩ (by decide) (by decide)⟩

/-- C7 (distance): for valid positions `p = (i, a)` and `q = (k, b)` the call
`p.distance_to(q)` returns the flat offset of `q` minus the flat offset of `p`;
when `i = k` that is `b - a`, when `i < k` it is `(len_i - a)` plus the sizes of
the sequences strictly between plus `b`, and when `i > k` it is the negation of
`q.distance_to(p)`. -/
theorem distance_to_eq {α : Type} (v : View α) (p q : Cursor) (hp : Valid v p)
    (hq : Valid v q) :
    distance_to v p q = some ((flat v q : Int) - flat v p) ∧
      (p.which = q.which → distance_to v p q = some ((q.it : Int) - p.it)) ∧
      (p.which < q.which → distance_to v p q =
        some ((((rng v p.which).length : Int) - p.it) + sizesBetween v p.which q.which + q.it)) ∧
      (q.which < p.which → distance_to v p q = (distance_to v q p).map (fun d => -d)) := by
  have h := distance_to_spec v p q hp.1 hq.1
  refine ⟨h, ?_, ?_, ?_⟩
  · intro e
    rw [h]
    simp only [flat, e]
    congr 1
    push_cast
    omega
  · intro e
    rw [h]
    have h1 := offset_eq_add_sizesBetween v p.which q.which e
    have h2 := offset_succ v p.which
    simp only [flat]
    congr 1
    push_cast
    omega
  · intro _
    rw [h, distance_to_spec v q p hq.1 hp.1]
    simp only [Option.map_some']
    congr 1
    omega

/-- In `[1,2] ++ [3,4,5] ++ [] ++ [6]` the distance from `(0, 1)` to `(3, 1)` is
`(2 - 1) + 3 + 1 = 5`, and the distance back is `-5`. -/
theorem distance_to_eq_witness :
    Valid ([[1, 2], [3, 4, 5], [], [6]] : View Nat) ⟨0, 1⟩ ∧
      Valid ([[1, 2], [3, 4, 5], [], [6]] : View Nat) ⟨3, 1⟩ ∧
      distance_to ([[1, 2], [3, 4, 5], [], [6]] : View Nat) ⟨0, 1⟩ ⟨3, 1⟩
        = some ((flat ([[1, 2], [3, 4, 5], [], [6]] : View Nat) ⟨3, 1⟩ : Int)
            - flat ([[1, 2], [3, 4, 5], [], [6]] : View Nat) ⟨0, 1⟩) ∧
      distance_to ([[1, 2], [3, 4, 5], [], [6]] : View Nat) ⟨0, 1⟩ ⟨3, 1⟩ = some 5 ∧
      distance_to ([[1, 2], [3, 4, 5], [], [6]] : View Nat) ⟨3, 1⟩ ⟨0, 1⟩ = some (-5) :=
  ⟨by decide, by decide,
    (distance_to_eq [[1, 2], [3, 4, 5], [], [6]] ⟨0, 1⟩ ⟨3, 1⟩ (by decide) (by decide)).1,
    by decide, by decide⟩

/-- C8 (size additivity): `size()` is the sum of the sizes of the inputs reduced
modulo `2 ^ w`, the range of the unsigned size type, hence the exact sum whenever
the sum fits the type. -/
theorem size_eq_sum {α : Type} (v : View α) (w : Nat) :
    size v w = (v.map List.length).sum % 2 ^ w ∧
      ((v.map List.length).sum < 2 ^ w → size v w = (v.map List.length).sum) := by
  have h : size v w = (v.map List.length).sum % 2 ^ w := by
    unfold size
    rw [size_foldl (2 ^ w) (Nat.pos_pow_of_pos w (by decide)) _ 0
      (Nat.pos_pow_of_pos w (by decide)), Nat.zero_add]
  exact ⟨h, fun hlt => by rw [h, Nat.mod_eq_of_lt hlt]⟩

/-- The sizes 2, 0, 1 give 3 in a 32-bit size type. -/
theorem size_eq_sum_witness :
    (([[1, 2], [], [3]] : View Nat).map List.length).sum < 2 ^ 32 ∧
      size ([[1, 2], [], [3]] : View Nat) 32 = 3 :=
  ⟨by decide, (size_eq_sum ([[1, 2], [], [3]] : View Nat) 32).2 (by decide)⟩

/-- C9 (empty-sequence transparency): when at least one input is non-empty, the
traversal of the concatenation and the traversal of the concatenation of the
same inputs without the empty ones both finish and yield the same elements. -/
theorem traverse_filter_nonempty {α : Type} (v : View α) (h : ∃ s ∈ v, s ≠ []) (fuel : Nat)
    (hf : v.flatten.length ≤ fuel) :
    ∃ xs, traverse v (fun c => equal c (end_cursor v)) fuel (begin_cursor v) = some xs ∧
      traverse (v.filter (fun s => !s.isEmpty))
        (fun c => equal c (end_cursor (v.filter (fun s => !s.isEmpty)))) fuel
        (begin_cursor (v.filter (fun s => !s.isEmpty))) = some xs := by
  obtain ⟨s, hs, hne⟩ := h
  have hv : v ≠ [] := List.ne_nil_of_mem hs
  have hs' : s ∈ v.filter (fun s => !s.isEmpty) := by
    rw [List.mem_filter]
    refine ⟨hs, ?_⟩
    cases s with
    | nil => exact absurd rfl hne
    | cons _ _ => rfl
  have hv' : v.filter (fun s => !s.isEmpty) ≠ [] := List.ne_nil_of_mem hs'
  have hfl : (v.filter (fun s => !s.isEmpty)).flatten = v.flatten :=
    List.flatten_filter_not_isEmpty
  refine ⟨v.flatten, traverse_begin_spec v hv _ (fun c => equal_iff c _) fuel hf, ?_⟩
  rw [← hfl]
  exact traverse_begin_spec _ hv' _ (fun c => equal_iff c _) fuel (by rw [hfl]; exact hf)

/-- The inputs `[1,2]`, `[]`, `[3]` and the inputs `[1,2]`, `[3]` are traversed alike. -/
theorem traverse_filter_nonempty_witness :
    (∃ s ∈ ([[1, 2], [], [3]] : View Nat), s ≠ []) ∧
      ([[1, 2], [], [3]] : View Nat).flatten.length ≤ 3 ∧
      ([[1, 2], [], [3]] : View Nat).filter (fun s => !s.isEmpty) = [[1, 2], [3]] ∧
      ∃ xs, traverse ([[1, 2], [], [3]] : View Nat)
          (fun c => equal c (end_cursor ([[1, 2], [], [3]] : View Nat))) 3
          (begin_cursor ([[1, 2], [], [3]] : View Nat)) = some xs ∧
        traverse (([[1, 2], [], [3]] : View Nat).filter (fun s => !s.isEmpty))
          (fun c => equal c
            (end_cursor (([[1, 2], [], [3]] : View Nat).filter (fun s => !s.isEmpty)))) 3
          (begin_cursor (([[1, 2], [], [3]] : View Nat).filter (fun s => !s.isEmpty)))
          = some xs :=
  ⟨⟨[3], by decide, by decide⟩, by decide, by decide,
    traverse_filter_nonempty [[1, 2], [], [3]] ⟨[3], by decide, by decide⟩ 3 (by decide)⟩

/-- C10 (boundary at one sequence): in the view over the single sequence `s`
begin is `(0, begin(s))`, end is `(0, end(s))`; `next`, `prev` and `advance(n)`
apply the step forward, the step backward and the jump by `n` of `s` to the
underlying position and keep index `0`; `equal` compares the underlying
positions; `current` reads `s`; `distance_to` is the distance inside `s`;
`size()` is the size of `s` (which fits its size type); and the traversal
yields the elements of `s`. -/
theorem single_sequence {α : Type} (s : List α) (w : Nat) (hw : s.length < 2 ^ w) :
    begin_cursor [s] = ⟨0, seqBegin s⟩ ∧ end_cursor [s] = ⟨0, seqEnd s⟩ ∧
      (∀ a, next [s] ⟨0, a⟩ = (seqInc s a).map (Cursor.mk 0)) ∧
      (∀ a, prev [s] ⟨0, a⟩ = (seqDec s a).map (Cursor.mk 0)) ∧
      (∀ a (n : Int), a ≤ s.length →
        advance [s] ⟨0, a⟩ n = (seqAdvance s a n).map (Cursor.mk 0)) ∧
      (∀ a b : Nat, equal ⟨0, a⟩ ⟨0, b⟩ = (a == b)) ∧
      (∀ a, current [s] ⟨0, a⟩ = seqDeref s a) ∧
      (∀ a b, distance_to [s] ⟨0, a⟩ ⟨0, b⟩ = some (seqDistance a b)) ∧
      size [s] w = s.length ∧
      (∀ fuel, s.length ≤ fuel →
        traverse [s] (fun c => equal c (end_cursor [s])) fuel (begin_cursor [s]) = some s) := by
  refine ⟨rfl, rfl, ?_, ?_, ?_, ?_, ?_, ?_, ?_, ?_⟩
  · intro a
    unfold next
    rw [rng_cons_zero]
    cases seqInc s a <;> rfl
  · intro a
    unfold prev prev_fun
    rw [rng_cons_zero]
    by_cases h : a = 0
    · subst h
      simp [seqBegin, seqDec]
    · rw [if_pos (by simpa [seqBegin] using h)]
  · intro a n ha
    unfold advance
    by_cases hp : 0 < n
    · rw [if_pos hp]
      rfl
    · rw [if_neg hp]
      by_cases hm : n < 0
      · rw [if_pos hm]
        rfl
      · rw [if_neg hm]
        have h0 : n = 0 := by omega
        subst h0
        rw [seqAdvance_in s a 0 (by omega) (by omega)]
        simp
  · intro a b
    simp [equal]
  · intro a
    rfl
  · intro a b
    rfl
  · unfold size
    simp [Nat.mod_eq_of_lt hw]
  · intro fuel hf
    have := traverse_begin_spec [s] (by simp) _ (fun c => equal_iff c (end_cursor [s])) fuel
      (by simpa using hf)
    simpa using this

/-- The view over the single sequence `[7, 8, 9]`, with a 32-bit size type. -/
theorem single_sequence_witness :
    ([7, 8, 9] : List Nat).length < 2 ^ 32 ∧
      begin_cursor ([[7, 8, 9]] : View Nat) = ⟨0, 0⟩ ∧
      end_cursor ([[7, 8, 9]] : View Nat) = ⟨0, 3⟩ ∧
      next ([[7, 8, 9]] : View Nat) ⟨0, 1⟩ = (seqInc [7, 8, 9] 1).map (Cursor.mk 0) ∧
      prev ([[7, 8, 9]] : View Nat) ⟨0, 1⟩ = (seqDec [7, 8, 9] 1).map (Cursor.mk 0) ∧
      (1 ≤ ([7, 8, 9] : List Nat).length ∧
        advance ([[7, 8, 9]] : View Nat) ⟨0, 1⟩ 2 = (seqAdvance [7, 8, 9] 1 2).map (Cursor.mk 0)) ∧
      size ([[7, 8, 9]] : View Nat) 32 = 3 ∧
      (([7, 8, 9] : List Nat).length ≤ 3 ∧
        traverse ([[7, 8, 9]] : View Nat) (fun c => equal c (end_cursor [[7, 8, 9]])) 3
          (begin_cursor [[7, 8, 9]]) = some [7, 8, 9]) :=
  ⟨by decide, (single_sequence [7, 8, 9] 32 (by decide)).1,
    (single_sequence [7, 8, 9] 32 (by decide)).2.1,
    (single_sequence [7, 8, 9] 32 (by decide)).2.2.1 1,
    (single_sequence [7, 8, 9] 32 (by decide)).2.2.2.1 1,
    ⟨by decide, (single_sequence [7, 8, 9] 32 (by decide)).2.2.2.2.1 1 2 (by decide)⟩,
    (single_sequence [7, 8, 9] 32 (by decide)).2.2.2.2.2.2.2.2.1,
    ⟨by decide, (single_sequence [7, 8, 9] 32 (by decide)).2.2.2.2.2.2.2.2.2 3 (by decide)⟩⟩

/-! ## Stepping backward at the begin -/

theorem prev_fun_asserts_iff {α : Type} (v : View α) (N it : Nat) :
    prev_fun_asserts v N it = true ↔ offset v N + it = 0 := by
  induction N generalizing it with
  | zero => simp [prev_fun_asserts, seqBegin, offset_zero]
  | succ N ih =>
    have hoff := offset_succ v N
    unfold prev_fun_asserts
    by_cases h0 : it = seqBegin (rng v (N + 1))
    · rw [if_pos h0, ih]
      simp only [seqBegin] at h0
      simp only [seqEnd]
      omega
    · rw [if_neg h0]
      simp only [seqBegin] at h0
      constructor
      · intro h; cases h
      · intro h; omega

theorem offset_eq_zero_iff {α : Type} (v : View α) (i : Nat) :
    offset v i = 0 ↔ ∀ j, j < i → rng v j = [] := by
  induction i with
  | zero => simp [offset_zero]
  | succ i ih =>
    rw [offset_succ, Nat.add_eq_zero_iff, ih, List.length_eq_zero]
    constructor
    · intro h j hj
      rcases Nat.lt_succ_iff_lt_or_eq.mp hj with h1 | h1
      · exact h.1 j h1
      · rw [h1]; exact h.2
    · intro h
      exact ⟨fun j hj => h j (Nat.lt_succ_of_lt hj), h i (Nat.lt_succ_self i)⟩

theorem ne_nil_of_valid {α : Type} (v : View α) (p : Cursor) (hp : Valid v p) : v ≠ [] := by
  intro h
  have := hp.1
  simp [cranges, h] at this

theorem valid_eq_begin_iff {α : Type} (v : View α) (p : Cursor) (hp : Valid v p) :
    p = begin_cursor v ↔ flat v p = 0 := by
  have hb := valid_begin_cursor v (ne_nil_of_valid v p hp)
  constructor
  · intro h; rw [h]; exact hb.2
  · intro h
    exact valid_flat_inj v _ _ hp hb.1 (h.trans hb.2.symm)

/-- C11 (stepping backward past the beginning): for a valid position `p`,
`prev()` reaches the assertion of index 0 with a false condition exactly when
`p` is the begin position, that is when the underlying position is the initial
one and every sequence before the active index is empty; in that case `prev()`
has no result, and in every other case it returns the valid position of the
immediately preceding element. -/
theorem prev_asserts_iff_begin {α : Type} (v : View α) (p : Cursor) (hp : Valid v p) :
    (prev_fun_asserts v p.which p.it = true ↔ p = begin_cursor v) ∧
      (p = begin_cursor v ↔
        (p.it = seqBegin (rng v p.which) ∧ ∀ j, j < p.which → rng v j = [])) ∧
      (prev_fun_asserts v p.which p.it = true → prev v p = none) ∧
      (prev_fun_asserts v p.which p.it = false →
        ∃ q, prev v p = some q ∧ Valid v q ∧ flat v q + 1 = flat v p) := by
  have h1 := prev_fun_asserts_iff v p.which p.it
  have h2 := valid_eq_begin_iff v p hp
  have h3 := offset_eq_zero_iff v p.which
  refine ⟨?_, ?_, ?_, ?_⟩
  · rw [h1, h2]; rfl
  · rw [h2]
    simp only [flat, seqBegin, Nat.add_eq_zero_iff, h3]
    exact ⟨fun h => ⟨h.2, h.1⟩, fun h => ⟨h.2, h.1⟩⟩
  · intro h
    exact prev_fun_none v p.which p.it (h1.mp h)
  · intro h
    have hne : ¬ (offset v p.which + p.it = 0) := by
      intro e
      rw [h1.mpr e] at h
      cases h
    exact prev_spec v p hp (Nat.pos_of_ne_zero hne)

/-- In `[] ++ [1,2] ++ [] ++ [3]` the begin position `(1, 0)` trips the assertion,
and `(3, 0)` steps back over the empty sequence to `(1, 1)`. -/
theorem prev_asserts_iff_begin_witness :
    Valid ([[], [1, 2], [], [3]] : View Nat) ⟨1, 0⟩ ∧
      Valid ([[], [1, 2], [], [3]] : View Nat) ⟨3, 0⟩ ∧
      prev_fun_asserts ([[], [1, 2], [], [3]] : View Nat) 1 0 = true ∧
      (⟨1, 0⟩ : Cursor) = begin_cursor ([[], [1, 2], [], [3]] : View Nat) ∧
      prev ([[], [1, 2], [], [3]] : View Nat) ⟨1, 0⟩ = none ∧
      prev_fun_asserts ([[], [1, 2], [], [3]] : View Nat) 3 0 = false ∧
      prev ([[], [1, 2], [], [3]] : View Nat) ⟨3, 0⟩ = some ⟨1, 1⟩ ∧
      ∃ q, prev ([[], [1, 2], [], [3]] : View Nat) ⟨3, 0⟩ = some q ∧
        Valid ([[], [1, 2], [], [3]] : View Nat) q ∧
        flat ([[], [1, 2], [], [3]] : View Nat) q + 1
          = flat ([[], [1, 2], [], [3]] : View Nat) ⟨3, 0⟩ :=
  ⟨by decide, by decide, by decide,
    (prev_asserts_iff_begin [[], [1, 2], [], [3]] ⟨1, 0⟩ (by decide)).1.mp (by decide),
    (prev_asserts_iff_begin [[], [1, 2], [], [3]] ⟨1, 0⟩ (by decide)).2.2.1 (by decide),
    by decide, by decide,
    (prev_asserts_iff_begin [[], [1, 2], [], [3]] ⟨3, 0⟩ (by decide)).2.2.2 (by decide)⟩

/-- C12 (terminal marker equality): the sentinel built by `end_cursor` compares
equal to a position exactly when the position has active index `cranges - 1`
and its underlying position is the terminal position of the last sequence,
which is exactly when the position equals the end position built by
`end_cursor` for bounded inputs. -/
theorem sentinel_equal_end {α : Type} (v : View α) (p : Cursor) :
    ((sentinel v).equal v p = true ↔
        (p.which = cranges v - 1 ∧ p.it = seqEnd (rng v (cranges v - 1)))) ∧
      ((sentinel v).equal v p = true ↔ p = end_cursor v) ∧
      (sentinel v).equal v p = equal p (end_cursor v) := by
  obtain ⟨a, b⟩ := p
  refine ⟨by simp [Sentinel.equal, sentinel], by simp [Sentinel.equal, sentinel, end_cursor], ?_⟩
  simp [Sentinel.equal, sentinel, end_cursor, equal]

/-- C13 (capability propagation): `prev` is offered iff all inputs are
bidirectional; `advance` and `distance_to` iff all inputs are random-access;
`size` iff all inputs are sized; `end_cursor` returns a cursor iff all inputs
are bounded and a sentinel otherwise; the view is infinite iff some input is
infinite; the cursor is single-pass iff some input is single-pass. -/
theorem capability_propagation (rngs : List Caps) :
    (has_prev rngs = true ↔ ∀ r ∈ rngs, r.bidirectional = true) ∧
      (has_advance rngs = true ↔ ∀ r ∈ rngs, r.random_access = true) ∧
      (has_distance_to rngs = true ↔ ∀ r ∈ rngs, r.random_access = true) ∧
      (has_size rngs = true ↔ ∀ r ∈ rngs, r.sized = true) ∧
      (end_cursor_type rngs = EndType.cursor ↔ ∀ r ∈ rngs, r.bounded = true) ∧
      (end_cursor_type rngs = EndType.sentinel ↔ ¬ ∀ r ∈ rngs, r.bounded = true) ∧
      (view_is_infinite rngs = true ↔ ∃ r ∈ rngs, r.infinite = true) ∧
      (cursor_single_pass rngs = true ↔ ∃ r ∈ rngs, r.single_pass = true) := by
  have hall : ∀ (f : Caps → Bool), and_c (rngs.map f) = true ↔ ∀ r ∈ rngs, f r = true := by
    intro f
    simp [and_c, List.all_eq_true]
  have hany : ∀ (f : Caps → Bool), or_c (rngs.map f) = true ↔ ∃ r ∈ rngs, f r = true := by
    intro f
    simp [or_c, List.any_eq_true]
  refine ⟨hall _, hall _, hall _, hall _, ?_, ?_, hany _, hany _⟩
  · unfold end_cursor_type
    rw [← hall Caps.bounded]
    by_cases h : and_c (rngs.map Caps.bounded) = true
    · simp [h]
    · simp [h]
  · unfold end_cursor_type
    rw [← hall Caps.bounded]
    by_cases h : and_c (rngs.map Caps.bounded) = true
    · simp [h]
    · simp [h]

/-! ## The algorithm `generate` -/

theorem callN_length {β σ : Type} (call : σ → β × σ) (n : Nat) (f : σ) :
    (callN call n f).1.length = n := by
  induction n generalizing f with
  | zero => rfl
  | succ n ih => simp [callN, ih]

theorem callN_counted {β σ : Type} (call : σ → β × σ) (n : Nat) (f : σ) (c : Nat) :
    callN (counted call) n (f, c) = ((callN call n f).1, ((callN call n f).2, c + n)) := by
  induction n generalizing f c with
  | zero => rfl
  | succ n ih =>
    simp only [callN, counted, ih]
    rw [show c + 1 + n = c + (n + 1) by omega]

theorem generate_spec {β σ : Type} (call : σ → β × σ) (fuel : Nat) (out : List β) (b e : Nat)
    (f : σ) (hbe : b ≤ e) (he : e ≤ out.length) (hf : e - b ≤ fuel) :
    generate call fuel out b e f =
      some (out.take b ++ (callN call (e - b) f).1 ++ out.drop e, e,
        (callN call (e - b) f).2) := by
  induction fuel generalizing out b f with
  | zero =>
    have hb : b = e := by omega
    subst hb
    simp [generate, callN]
  | succ fuel ih =>
    unfold generate
    by_cases hb : b = e
    · subst hb
      simp [callN]
    · have hlt : b < out.length := by omega
      have hn : e - b = (e - (b + 1)) + 1 := by omega
      have hset : out.set b (call f).1 = out.take b ++ (call f).1 :: out.drop (b + 1) := by
        rw [List.set_eq_take_append_cons_drop, if_pos hlt]
      have htake : (out.set b (call f).1).take (b + 1) = out.take b ++ [(call f).1] := by
        rw [hset, List.take_append_eq_append_take]
        simp [List.length_take, Nat.min_eq_left (Nat.le_of_lt hlt)]
      rw [if_pos hb, if_pos hlt, ih (out.set b (call f).1) (b + 1) (call f).2 (by omega)
        (by rw [List.length_set]; exact he) (by omega), htake,
        List.drop_set_of_lt _ _ (by omega : b < e), hn]
      simp [callN]

theorem splice_getElem?_inside {β : Type} (out xs : List β) (b e k : Nat) (he : e ≤ out.length)
    (hbe : b ≤ e) : (out.take b ++ xs ++ out.drop e)[b + k]? = (xs ++ out.drop e)[k]? := by
  rw [List.append_assoc, List.getElem?_append_right (by simp)]
  rw [List.length_take, Nat.min_eq_left (by omega), Nat.add_sub_cancel_left]

theorem splice_getElem?_before {β : Type} (out xs : List β) (b e i : Nat) (he : e ≤ out.length)
    (hbe : b ≤ e) (hi : i < b) : (out.take b ++ xs ++ out.drop e)[i]? = out[i]? := by
  rw [List.append_assoc, List.getElem?_append_left (by simp; omega), List.getElem?_take_of_lt hi]

theorem splice_getElem?_after {β : Type} (out xs : List β) (b e i : Nat) (he : e ≤ out.length)
    (hbe : b ≤ e) (hx : xs.length = e - b) (hi : e ≤ i) :
    (out.take b ++ xs ++ out.drop e)[i]? = out[i]? := by
  rw [List.getElem?_append_right (by simp; omega), List.getElem?_drop]
  congr 1
  simp
  omega

/-- C14 (`generate`): for a destination `[b, e)` of `n = e - b` positions inside
the buffer, `generate(begin, end, fun)` finishes and returns the position `e`
and the generator in its state after `n` calls; the instrumented generator has
been called exactly `n` times; the buffer has its old length, holds the result
of call `k` at position `b + k` and is unchanged outside `[b, e)`; and the range
overload returns what `generate(begin(rng), end(rng), fun)` returns. -/
theorem generate_fills {β σ : Type} (call : σ → β × σ) (fuel : Nat) (out : List β) (b e : Nat)
    (f : σ) (hbe : b ≤ e) (he : e ≤ out.length) (hf : e - b ≤ fuel) :
    ∃ r, generate call fuel out b e f = some (r, e, (callN call (e - b) f).2) ∧
      generate (counted call) fuel out b e (f, 0)
        = some (r, e, ((callN call (e - b) f).2, e - b)) ∧
      r.length = out.length ∧
      (∀ k, k < e - b → r[b + k]? = (callN call (e - b) f).1[k]?) ∧
      (∀ i, i < b ∨ e ≤ i → r[i]? = out[i]?) ∧
      generate_rng call fuel out f = generate call fuel out (seqBegin out) (seqEnd out) f := by
  have hlen := callN_length call (e - b) f
  refine ⟨_, generate_spec call fuel out b e f hbe he hf, ?_, ?_, ?_, ?_, rfl⟩
  · rw [generate_spec (counted call) fuel out b e (f, 0) hbe he hf, callN_counted, Nat.zero_add]
  · simp [hlen]
    omega
  · intro k hk
    rw [splice_getElem?_inside out _ b e k he hbe,
      List.getElem?_append_left (by rw [hlen]; exact hk)]
  · intro i hi
    rcases hi with hi | hi
    · exact splice_getElem?_before out _ b e i he hbe hi
    · exact splice_getElem?_after out _ b e i he hbe hlen hi

/-- Filling positions `[1, 3)` of `[0, 0, 0, 0]` from the counter that starts at
`5` writes `5, 6` and returns position `3` and the counter at `7`. -/
theorem generate_fills_witness :
    (1 : Nat) ≤ 3 ∧ 3 ≤ ([0, 0, 0, 0] : List Nat).length ∧ 3 - 1 ≤ 2 ∧
      generate (fun n : Nat => (n, n + 1)) 2 [0, 0, 0, 0] 1 3 5 = some ([0, 5, 6, 0], 3, 7) ∧
      ∃ r, generate (fun n : Nat => (n, n + 1)) 2 [0, 0, 0, 0] 1 3 5
          = some (r, 3, (callN (fun n : Nat => (n, n + 1)) (3 - 1) 5).2) ∧
        generate (counted (fun n : Nat => (n, n + 1))) 2 [0, 0, 0, 0] 1 3 (5, 0)
          = some (r, 3, ((callN (fun n : Nat => (n, n + 1)) (3 - 1) 5).2, 3 - 1)) ∧
        r.length = ([0, 0, 0, 0] : List Nat).length ∧
        (∀ k, k < 3 - 1 → r[1 + k]? = (callN (fun n : Nat => (n, n + 1)) (3 - 1) 5).1[k]?) ∧
        (∀ i, i < 1 ∨ 3 ≤ i → r[i]? = ([0, 0, 0, 0] : List Nat)[i]?) ∧
        generate_rng (fun n : Nat => (n, n + 1)) 2 [0, 0, 0, 0] 5
          = generate (fun n : Nat => (n, n + 1)) 2 [0, 0, 0, 0]
              (seqBegin [0, 0, 0, 0]) (seqEnd [0, 0, 0, 0]) 5 :=
  ⟨by decide, by decide, by decide, by decide,
    generate_fills (fun n : Nat => (n, n + 1)) 2 [0, 0, 0, 0] 1 3 5 (by decide) (by decide)
      (by decide)⟩

/-! ## The boundary skip, in detail -/

/-- C15 (postcondition of `satisfy`): called at active index `i`, `satisfy`
increments the index at most `cranges - 1 - i` times and stops at the smallest
index `k ≥ i` that is `cranges - 1` or whose position is not terminal; with
`k = i` the position is unchanged; with `k > i` the given position was the
terminal position of sequence `i`, the new one is the initial position of
sequence `k`, and every sequence strictly between is empty. -/
theorem satisfy_post {α : Type} (v : View α) (c : Cursor) (hc : c.which < cranges v) :
    c.which ≤ (satisfy v c).which ∧
      (satisfy v c).which - c.which ≤ cranges v - 1 - c.which ∧
      ((satisfy v c).which = cranges v - 1 ∨
        (satisfy v c).it ≠ seqEnd (rng v (satisfy v c).which)) ∧
      (∀ j, c.which ≤ j → j < (satisfy v c).which →
        j ≠ cranges v - 1 ∧
          (if j = c.which then c.it else seqBegin (rng v j)) = seqEnd (rng v j)) ∧
      ((satisfy v c).which = c.which → satisfy v c = c) ∧
      (c.which < (satisfy v c).which →
        c.it = seqEnd (rng v c.which) ∧
        (satisfy v c).it = seqBegin (rng v (satisfy v c).which) ∧
        ∀ j, c.which < j → j < (satisfy v c).which → rng v j = []) := by
  obtain ⟨h1, h2, h3, h4, h5⟩ := satisfyAux_post v (cranges v - 1 - c.which) c (by omega)
  refine ⟨h1, ?_, h3, ?_, h4, h5⟩
  · unfold satisfy
    omega
  · intro j hj1 hj2
    have hlt : c.which < (satisfy v c).which := by omega
    refine ⟨by unfold satisfy at hj2; omega, ?_⟩
    by_cases e : j = c.which
    · rw [if_pos e, e]
      exact (h5 hlt).1
    · rw [if_neg e, (h5 hlt).2.2 j (by omega) hj2]
      rfl

/-- In `[1,2] ++ [] ++ [] ++ [3] ++ [4]` the position `(0, 2)` is moved over two
empty sequences to `(3, 0)`. -/
theorem satisfy_post_witness :
    (0 : Nat) < cranges ([[1, 2], [], [], [3], [4]] : View Nat) ∧
      satisfy ([[1, 2], [], [], [3], [4]] : View Nat) ⟨0, 2⟩ = ⟨3, 0⟩ ∧
      (⟨0, 2⟩ : Cursor).which ≤ (satisfy ([[1, 2], [], [], [3], [4]] : View Nat) ⟨0, 2⟩).which ∧
      (satisfy ([[1, 2], [], [], [3], [4]] : View Nat) ⟨0, 2⟩).which - (⟨0, 2⟩ : Cursor).which
        ≤ cranges ([[1, 2], [], [], [3], [4]] : View Nat) - 1 - (⟨0, 2⟩ : Cursor).which :=
  ⟨by decide, by decide,
    (satisfy_post ([[1, 2], [], [], [3], [4]] : View Nat) ⟨0, 2⟩ (by decide)).1,
    (satisfy_post ([[1, 2], [], [], [3], [4]] : View Nat) ⟨0, 2⟩ (by decide)).2.1⟩

/-! ## Backward jumps and inverse steps -/

theorem prevN_spec {α : Type} (v : View α) (n : Nat) (c : Cursor) (hc : Valid v c)
    (hn : n ≤ flat v c) :
    ∃ q, prevN v n c = some q ∧ Valid v q ∧ flat v q + n = flat v c := by
  induction n generalizing c with
  | zero => exact ⟨c, rfl, hc, rfl⟩
  | succ n ih =>
    obtain ⟨r, r1, r2, r3⟩ := prev_spec v c hc (by omega)
    obtain ⟨q, q1, q2, q3⟩ := ih r r2 (by omega)
    refine ⟨q, ?_, q2, by omega⟩
    simp only [prevN, r1, Option.some_bind]
    exact q1

/-- C16 (backward jump): from a valid position, for every `n > 0` not larger
than the number of elements back to the begin, `advance(-n)` and `n` calls of
`prev()` both succeed and give the same position; its active index is at most
the one of the start (and, being a natural number, not below 0). -/
theorem prevN_eq_advance {α : Type} (v : View α) (p : Cursor) (hp : Valid v p) (n : Nat)
    (h0 : 0 < n) (hn : n ≤ flat v p) :
    ∃ q, prevN v n p = some q ∧ advance v p (-(n : Int)) = some q ∧ q.which ≤ p.which := by
  obtain ⟨q, q1, q2, q3⟩ := prevN_spec v n p hp hn
  obtain ⟨r, r1, r2, r3⟩ := advance_spec v p (-(n : Int)) hp (by omega)
    (by have := flat_le_total v p hp.1 hp.2.1; omega)
  have e : q = r := valid_flat_inj v q r q2 r2 (by omega)
  refine ⟨q, q1, e ▸ r1, ?_⟩
  rcases Nat.lt_or_ge p.which q.which with hlt | hge
  · exfalso
    have h1 := offset_mono v (show p.which + 1 ≤ q.which by omega)
    have h2 := offset_succ v p.which
    have h3 := hp.2.1
    simp only [flat] at q3
    omega
  · exact hge

/-- In `[1,2] ++ [] ++ [3,4,5] ++ [6]` four steps back from `(3, 0)` and
`advance(-4)` both give `(0, 1)`. -/
theorem prevN_eq_advance_witness :
    Valid ([[1, 2], [], [3, 4, 5], [6]] : View Nat) ⟨3, 0⟩ ∧ 0 < 4 ∧
      4 ≤ flat ([[1, 2], [], [3, 4, 5], [6]] : View Nat) ⟨3, 0⟩ ∧
      advance ([[1, 2], [], [3, 4, 5], [6]] : View Nat) ⟨3, 0⟩ (-4) = some ⟨0, 1⟩ ∧
      ∃ q, prevN ([[1, 2], [], [3, 4, 5], [6]] : View Nat) 4 ⟨3, 0⟩ = some q ∧
        advance ([[1, 2], [], [3, 4, 5], [6]] : View Nat) ⟨3, 0⟩ (-((4 : Nat) : Int)) = some q ∧
        q.which ≤ (⟨3, 0⟩ : Cursor).which :=
  ⟨by decide, by decide, by decide, by decide,
    prevN_eq_advance [[1, 2], [], [3, 4, 5], [6]] ⟨3, 0⟩ (by decide) 4 (by decide) (by decide)⟩

/-- C17 (`next` and `prev` are mutually inverse on their domains): for a valid
position `p`, if `p` is not the end then `next()` returns a position from which
`prev()` returns `p` without tripping its assertion, and if `p` is not the
begin then `prev()` returns a position from which `next()` returns `p`. -/
theorem next_prev_inverse {α : Type} (v : View α) (p : Cursor) (hp : Valid v p) :
    (p ≠ end_cursor v → ∃ q, next v p = some q ∧ prev v q = some p) ∧
      (p ≠ begin_cursor v → ∃ q, prev v p = some q ∧ next v q = some p) := by
  have hv := ne_nil_of_valid v p hp
  constructor
  · intro hne
    have h := next_spec v p hp (valid_it_lt v p hp hne)
    obtain ⟨r, r1, r2, r3⟩ := prev_spec v _ h.2.1 (by rw [h.2.2]; omega)
    have e : r = p := valid_flat_inj v r p r2 hp (by omega)
    exact ⟨_, h.1, e ▸ r1⟩
  · intro hne
    obtain ⟨q, q1, q2, q3⟩ := prev_spec v p hp (valid_flat_pos v hv p hp hne)
    have hlt : flat v q < v.flatten.length := by
      have := flat_le_total v p hp.1 hp.2.1
      omega
    have hqe : q ≠ end_cursor v := fun h => by
      have := (valid_eq_end_iff v hv q q2).mp h
      omega
    have h := next_spec v q q2 (valid_it_lt v q q2 hqe)
    have e : satisfy v ⟨q.which, q.it + 1⟩ = p := valid_flat_inj v _ p h.2.1 hp (by omega)
    exact ⟨q, q1, e ▸ h.1⟩

/-- In `[1,2] ++ [] ++ [] ++ [3]` the step from `(0, 1)` crosses two empty
sequences to `(3, 0)` and the step back returns, and conversely. -/
theorem next_prev_inverse_witness :
    Valid ([[1, 2], [], [], [3]] : View Nat) ⟨0, 1⟩ ∧
      Valid ([[1, 2], [], [], [3]] : View Nat) ⟨3, 0⟩ ∧
      (⟨0, 1⟩ : Cursor) ≠ end_cursor ([[1, 2], [], [], [3]] : View Nat) ∧
      (⟨3, 0⟩ : Cursor) ≠ begin_cursor ([[1, 2], [], [], [3]] : View Nat) ∧
      next ([[1, 2], [], [], [3]] : View Nat) ⟨0, 1⟩ = some ⟨3, 0⟩ ∧
      (∃ q, next ([[1, 2], [], [], [3]] : View Nat) ⟨0, 1⟩ = some q ∧
        prev ([[1, 2], [], [], [3]] : View Nat) q = some ⟨0, 1⟩) ∧
      ∃ q, prev ([[1, 2], [], [], [3]] : View Nat) ⟨3, 0⟩ = some q ∧
        next ([[1, 2], [], [], [3]] : View Nat) q = some ⟨3, 0⟩ :=
  ⟨by decide, by decide, by decide, by decide, by decide,
    (next_prev_inverse [[1, 2], [], [], [3]] ⟨0, 1⟩ (by decide)).1 (by decide),
    (next_prev_inverse [[1, 2], [], [], [3]] ⟨3, 0⟩ (by decide)).2 (by decide)⟩

/-! ## Canonical positions -/

/-- C18 (canonical representation): two valid positions compare equal exactly
when their flat offsets are equal, which is exactly when their distance is 0;
every flat offset up to the total size is the flat offset of exactly one valid
position; and a position reached from the begin by `n` steps has flat offset
`n`, at most the total size, and compares equal to the end when `n` is the
total size, which `next()` reaches after that many steps. -/
theorem canonical_position {α : Type} (v : View α) (p q : Cursor) (hp : Valid v p)
    (hq : Valid v q) :
    (equal p q = true ↔ flat v p = flat v q) ∧
      (equal p q = true ↔ distance_to v p q = some 0) ∧
      (∀ m, m ≤ v.flatten.length → ∃! c, Valid v c ∧ flat v c = m) ∧
      (∀ n c, nextN v n (begin_cursor v) = some c →
        n ≤ v.flatten.length ∧ flat v c = n ∧
          (n = v.flatten.length → equal c (end_cursor v) = true)) ∧
      nextN v v.flatten.length (begin_cursor v) = some (end_cursor v) := by
  have hv := ne_nil_of_valid v p hp
  have hb := valid_begin_cursor v hv
  refine ⟨?_, ?_, ?_, ?_, ?_⟩
  · rw [equal_iff]
    exact ⟨fun h => by rw [h], valid_flat_inj v p q hp hq⟩
  · rw [equal_iff, distance_to_spec v p q hp.1 hq.1]
    constructor
    · intro h
      rw [h, Int.sub_self]
    · intro h
      have h0 : (flat v q : Int) - flat v p = 0 := Option.some.inj h
      exact valid_flat_inj v p q hp hq (by omega)
  · intro m hm
    obtain ⟨c, _, c2, c3⟩ := nextN_spec v hv m (begin_cursor v) hb.1 (by rw [hb.2]; omega)
    refine ⟨c, ⟨c2, by rw [c3, hb.2]; omega⟩, ?_⟩
    intro c' hc'
    exact valid_flat_inj v c' c hc'.1 c2 (by rw [hc'.2, c3, hb.2]; omega)
  · intro n c h
    have hc := nextN_eq_some v n (begin_cursor v) c hb.1 h
    have hle := flat_le_total v c hc.1.1 hc.1.2.1
    rw [hb.2, Nat.zero_add] at hc
    refine ⟨by omega, hc.2, fun e => ?_⟩
    rw [equal_iff]
    exact (valid_eq_end_iff v hv c hc.1).mpr (by omega)
  · obtain ⟨c, c1, c2, c3⟩ := nextN_spec v hv v.flatten.length (begin_cursor v) hb.1
      (by rw [hb.2]; omega)
    rw [c1, (valid_eq_end_iff v hv c c2).mpr (by rw [c3, hb.2]; omega)]

/-- In `[1,2] ++ [] ++ [3]` the valid positions `(0, 1)` and `(2, 0)` differ and
have different flat offsets, and three steps from the begin reach the end. -/
theorem canonical_position_witness :
    Valid ([[1, 2], [], [3]] : View Nat) ⟨0, 1⟩ ∧ Valid ([[1, 2], [], [3]] : View Nat) ⟨2, 0⟩ ∧
      (equal ⟨0, 1⟩ ⟨2, 0⟩ = true ↔
        flat ([[1, 2], [], [3]] : View Nat) ⟨0, 1⟩ = flat ([[1, 2], [], [3]] : View Nat) ⟨2, 0⟩) ∧
      nextN ([[1, 2], [], [3]] : View Nat) ([[1, 2], [], [3]] : View Nat).flatten.length
        (begin_cursor [[1, 2], [], [3]]) = some (end_cursor [[1, 2], [], [3]]) :=
  ⟨by decide, by decide,
    (canonical_position [[1, 2], [], [3]] ⟨0, 1⟩ ⟨2, 0⟩ (by decide) (by decide)).1,
    (canonical_position [[1, 2], [], [3]] ⟨0, 1⟩ ⟨2, 0⟩ (by decide) (by decide)).2.2.2.2⟩

/-- C19 (distance agrees with size): in a view over at least one sequence, the
distance from `begin_cursor` to `end_cursor` is the sum of the sizes of the
inputs, empty ones counting 0, and it is `size()` whenever that sum fits the
size type. -/
theorem distance_begin_end {α : Type} (v : View α) (hv : v ≠ []) (w : Nat) :
    distance_to v (begin_cursor v) (end_cursor v) = some (((v.map List.length).sum : Nat) : Int) ∧
      ((v.map List.length).sum < 2 ^ w →
        distance_to v (begin_cursor v) (end_cursor v) = some ((size v w : Nat) : Int)) := by
  have hb := valid_begin_cursor v hv
  have he := valid_end_cursor v hv
  have hs : size v w = (v.map List.length).sum % 2 ^ w := by
    unfold size
    rw [size_foldl (2 ^ w) (Nat.pos_pow_of_pos w (by decide)) _ 0
      (Nat.pos_pow_of_pos w (by decide)), Nat.zero_add]
  have hd : distance_to v (begin_cursor v) (end_cursor v)
      = some (((v.map List.length).sum : Nat) : Int) := by
    rw [distance_to_spec v _ _ hb.1.1 he.1.1, hb.2, he.2, List.length_flatten]
    simp
  exact ⟨hd, fun hlt => by rw [hd, hs, Nat.mod_eq_of_lt hlt]⟩

/-- In `[] ++ [1,2] ++ [] ++ [3]` the distance from begin to end is `3`, the size. -/
theorem distance_begin_end_witness :
    ([[], [1, 2], [], [3]] : View Nat) ≠ [] ∧
      (([[], [1, 2], [], [3]] : View Nat).map List.length).sum < 2 ^ 32 ∧
      size ([[], [1, 2], [], [3]] : View Nat) 32 = 3 ∧
      distance_to ([[], [1, 2], [], [3]] : View Nat) (begin_cursor [[], [1, 2], [], [3]])
        (end_cursor [[], [1, 2], [], [3]])
        = some ((size ([[], [1, 2], [], [3]] : View Nat) 32 : Nat) : Int) :=
  ⟨by decide, by decide, by decide,
    (distance_begin_end [[], [1, 2], [], [3]] (by decide) 32).2 (by decide)⟩

/-! ## The assertions of the distance recursion -/

theorem distance_to_calls_spec {α : Type} (v : View α) (k N : Nat) (src dst : Cursor)
    (hsd : src.which ≤ dst.which) (hN : N ≤ dst.which) (hk : dst.which < k + N) :
    distance_to_calls v k N src dst = some (dst.which + 1 - N) := by
  induction k generalizing N with
  | zero => omega
  | succ k ih =>
    unfold distance_to_calls
    by_cases h1 : src.which > N
    · rw [if_pos h1, ih (N + 1) (by omega) (by omega), Option.map_some']
      congr 1
      omega
    · rw [if_neg h1]
      by_cases h2 : src.which = N
      · rw [if_pos h2]
        by_cases h3 : dst.which = N
        · rw [if_pos h3]
          congr 1
          omega
        · rw [if_neg h3, ih (N + 1) (by omega) (by omega), Option.map_some']
          congr 1
          omega
      · rw [if_neg h2]
        by_cases h3 : dst.which > N
        · have h4 : src.which < N ∧ dst.which > N := ⟨by omega, h3⟩
          rw [if_pos h4, ih (N + 1) (by omega) (by omega), Option.map_some']
          congr 1
          omega
        · have h4 : dst.which = N := by omega
          have h5 : ¬ (src.which < N ∧ dst.which > N) := fun h => h3 h.2
          rw [if_neg h5, if_pos h4]
          congr 1
          omega

theorem distance_to_calls_isSome {α : Type} (v : View α) (k N : Nat) (src dst : Cursor) :
    (distance_to_ v k N src dst).isSome = (distance_to_calls v k N src dst).isSome := by
  induction k generalizing N with
  | zero => rfl
  | succ k ih =>
    unfold distance_to_ distance_to_calls
    split
    · rw [Option.isSome_map', ih]
    · split
      · split
        · rfl
        · rw [Option.isSome_map', Option.isSome_map', ih]
      · split
        · rw [Option.isSome_map', Option.isSome_map', ih]
        · split <;> rfl

/-- C20 (assertions of the distance recursion): for positions with active
indices below `cranges`, `distance_to` returns a distance, so neither the base
case `distance_to_(meta::size_t<cranges>)` is reached nor does
`RANGES_ASSERT(to.its_.which() == N)` fail, and the number of invocations of
`distance_to_` is the larger active index plus one, at most `cranges`; for all
positions the instrumented recursion succeeds exactly when `distance_to` does. -/
theorem distance_to_no_assert {α : Type} (v : View α) (p q : Cursor) :
    (distance_to v p q).isSome = (distance_to_count v p q).isSome ∧
      (p.which < cranges v → q.which < cranges v →
        (∃ d, distance_to v p q = some d) ∧
        distance_to_count v p q = some (max p.which q.which + 1) ∧
        max p.which q.which + 1 ≤ cranges v) := by
  constructor
  · unfold distance_to distance_to_count
    split
    · exact distance_to_calls_isSome v _ _ _ _
    · rw [Option.isSome_map', distance_to_calls_isSome]
  · intro hp hq
    refine ⟨⟨_, distance_to_spec v p q hp hq⟩, ?_, by omega⟩
    unfold distance_to_count
    by_cases h : p.which ≤ q.which
    · rw [if_pos h, distance_to_calls_spec v _ 0 p q h (Nat.zero_le _) (by omega),
        Nat.max_eq_right h]
      rfl
    · rw [if_neg h, distance_to_calls_spec v _ 0 q p (by omega) (Nat.zero_le _) (by omega),
        Nat.max_eq_left (by omega)]
      rfl

/-- In `[1,2] ++ [3,4,5] ++ [] ++ [6]` the distance from `(2, 0)` to `(0, 1)` is
computed by three invocations of `distance_to_`. -/
theorem distance_to_no_assert_witness :
    (⟨2, 0⟩ : Cursor).which < cranges ([[1, 2], [3, 4, 5], [], [6]] : View Nat) ∧
      (⟨0, 1⟩ : Cursor).which < cranges ([[1, 2], [3, 4, 5], [], [6]] : View Nat) ∧
      distance_to ([[1, 2], [3, 4, 5], [], [6]] : View Nat) ⟨2, 0⟩ ⟨0, 1⟩ = some (-4) ∧
      distance_to_count ([[1, 2], [3, 4, 5], [], [6]] : View Nat) ⟨2, 0⟩ ⟨0, 1⟩ = some 3 ∧
      ((∃ d, distance_to ([[1, 2], [3, 4, 5], [], [6]] : View Nat) ⟨2, 0⟩ ⟨0, 1⟩ = some d) ∧
        distance_to_count ([[1, 2], [3, 4, 5], [], [6]] : View Nat) ⟨2, 0⟩ ⟨0, 1⟩
          = some (max (⟨2, 0⟩ : Cursor).which (⟨0, 1⟩ : Cursor).which + 1) ∧
        max (⟨2, 0⟩ : Cursor).which (⟨0, 1⟩ : Cursor).which + 1
          ≤ cranges ([[1, 2], [3, 4, 5], [], [6]] : View Nat)) :=
  ⟨by decide, by decide, by decide, by decide,
    (distance_to_no_assert [[1, 2], [3, 4, 5], [], [6]] ⟨2, 0⟩ ⟨0, 1⟩).2 (by decide) (by decide)⟩

end Concat
